import Mathlib

/-!
# MCDM Ranking & Normalization Engine — verification development

Shallow embedding of the MCDM calculation engine (normalization strategies,
the ten crisp ranking algorithms, the method dispatcher, the fuzzy-number
kernel, fuzzy TOPSIS and expert aggregation) together with proofs and
refutations of the specified properties.

Modelling conventions:
* JavaScript numbers are modelled by an arbitrary linear ordered field `K`
  (instantiated at `ℚ` for executable witnesses and at `ℝ` where proofs
  need genuine square roots).  `Math.sqrt` and `Math.pow` are passed in as
  function parameters `sqrt` / `rpow`, since neither is field-definable.
* The JS guard `x || d` (replace a zero by a default) is `jsOr`.
* `Math.max(...xs)` / `Math.min(...xs)` are `jsMax` / `jsMin`; the source
  only ever spreads non-empty lists in the computations the claims touch,
  so the `[]` case of the model is junk (JS would give ±Infinity).
* `matrix[i][j]` is modelled by `getD` with default `0`: on the
  well-formed (rectangular) inputs the claims quantify over the two agree;
  JS would produce `NaN` arithmetic on ragged access.
* The stable descending sort + rank assignment
  `scores.map((s,i)=>({s,i})).sort((a,b)=>b.s-a.s); ranking[item.i]=rank+1`
  shared by every method is modelled by `rankFrom`: in a stable descending
  sort the final position of index `i` is the number of indices with
  strictly greater score plus the number of earlier indices with an equal
  score.
-/

set_option maxHeartbeats 1000000

namespace MCDM

variable {K : Type} [LinearOrderedField K]

/-- Direction of a criterion: the `'max' | 'min'` union type of the source. -/
inductive Direction
  | max
  | min
deriving DecidableEq

/-- JS `x || d` on numbers: `0` is falsy and is replaced by the default. -/
def jsOr (x d : K) : K := if x = 0 then d else x

/-- `Math.max(...xs)`; the `[]` case (JS `-Infinity`) is unreachable junk. -/
def jsMax : List K → K
  | [] => 0
  | x :: xs => xs.foldl max x

/-- `Math.min(...xs)`; the `[]` case (JS `Infinity`) is unreachable junk. -/
def jsMin : List K → K
  | [] => 0
  | x :: xs => xs.foldl min x

/-- `matrix.map(row => row[j] || 0)`: the j-th column of a matrix. -/
def col (matrix : List (List K)) (j : ℕ) : List K :=
  matrix.map (fun row => row.getD j 0)

/-- `matrix[0]?.length || 0`: the number of criteria. -/
def numCrit (matrix : List (List K)) : ℕ := (matrix.headD []).length

/-- `directions[j] === 'max'` is false for out-of-range `j` (JS `undefined`),
so the default for missing entries is `min`. -/
def dirAt (directions : List Direction) (j : ℕ) : Direction :=
  directions.getD j Direction.min

/-- `rankP scores i k` holds when index `k` ends up strictly before index
`i` in the stable descending sort: `k` has a strictly larger score, or an
equal score and a smaller original position. -/
def rankP (scores : List K) (i : ℕ) : ℕ → Bool := fun k =>
  decide (scores.getD i 0 < scores.getD k 0 ∨
    (k < i ∧ scores.getD k 0 = scores.getD i 0))

/-- Rank list produced by the stable descending sort over scores:
`ranking[i]` is one plus the number of indices that end up strictly before
`i` (JS `Array.prototype.sort` is stable). -/
def rankFrom (scores : List K) : List ℕ :=
  (List.range scores.length).map (fun i =>
    1 + (List.range scores.length).countP (rankP scores i))

/-- Result record of every ranking method (`intermediateData` omitted). -/
structure MCDMResult (K : Type) where
  scores : List K
  ranking : List ℕ

namespace Normalization

/-- Vector normalization: divide column `j` by
`Math.sqrt(colValues.reduce((sum,v) => sum + v*v, 0)) || 1`. -/
def vector (sqrt : K → K) (matrix : List (List K)) (_directions : List Direction) :
    List (List K) :=
  let nc := numCrit matrix
  matrix.map (fun row =>
    ((List.range nc).map (fun j =>
      row.getD j 0 /
        jsOr (sqrt ((col matrix j).foldl (fun s v => s + v * v) 0)) 1)) ++
    row.drop nc)

/-- Linear max normalization: maximize columns divide by the column max
(`|| 1`); minimize columns divide the smallest positive column value
(`|| 0.001`) by the cell, with `0` cells mapped to `0`. -/
def linearMax (matrix : List (List K)) (directions : List Direction) :
    List (List K) :=
  let nc := numCrit matrix
  matrix.map (fun row =>
    ((List.range nc).map (fun j =>
      let colValues := col matrix j
      let maxVal := jsOr (jsMax colValues) 1
      let minVal := jsOr (jsMin (colValues.filter (fun v => decide (0 < v)))) (1/1000)
      if dirAt directions j = Direction.max then
        row.getD j 0 / maxVal
      else
        if row.getD j 0 ≠ 0 then minVal / row.getD j 0 else 0)) ++
    row.drop nc)

/-- Min-max normalization with `range = max - min || 1`. -/
def minMax (matrix : List (List K)) (directions : List Direction) :
    List (List K) :=
  let nc := numCrit matrix
  matrix.map (fun row =>
    ((List.range nc).map (fun j =>
      let colValues := col matrix j
      let maxVal := jsMax colValues
      let minVal := jsMin colValues
      let rng := jsOr (maxVal - minVal) 1
      if dirAt directions j = Direction.max then
        (row.getD j 0 - minVal) / rng
      else
        (maxVal - row.getD j 0) / rng)) ++
    row.drop nc)

/-- Sum normalization: divide column `j` by its sum (`|| 1`). -/
def sum (matrix : List (List K)) (_directions : List Direction) :
    List (List K) :=
  let nc := numCrit matrix
  matrix.map (fun row =>
    ((List.range nc).map (fun j =>
      row.getD j 0 / jsOr ((col matrix j).foldl (fun s v => s + v) 0) 1)) ++
    row.drop nc)

end Normalization

/-- SAW: linear-max normalize, then
`row.reduce((sum, val, j) => sum + val * (weights[j] || 0), 0)`. -/
def SAW (matrix : List (List K)) (weights : List K) (directions : List Direction) :
    MCDMResult K :=
  let normalized := Normalization.linearMax matrix directions
  let scores := normalized.map (fun row =>
    row.enum.foldl (fun s p => s + p.2 * weights.getD p.1 0) 0)
  { scores := scores, ranking := rankFrom scores }

/-- WPM: product of `Math.pow(val || 0.001, ±weights[j])`, the exponent sign
flipping on minimize criteria. -/
def WPM (rpow : K → K → K) (matrix : List (List K)) (weights : List K)
    (directions : List Direction) : MCDMResult K :=
  let scores := matrix.map (fun row =>
    row.enum.foldl (fun product p =>
      let power := if dirAt directions p.1 = Direction.max
        then weights.getD p.1 0 else -(weights.getD p.1 0)
      product * rpow (jsOr p.2 (1/1000)) power) 1)
  { scores := scores, ranking := rankFrom scores }

/-- TOPSIS: vector normalize, weight, direction-aware ideal / anti-ideal,
Euclidean distances, closeness `dMinus / (dPlus + dMinus + 0.0001)`. -/
def TOPSIS (sqrt : K → K) (matrix : List (List K)) (weights : List K)
    (directions : List Direction) : MCDMResult K :=
  let nc := numCrit matrix
  let normalized := Normalization.vector sqrt matrix directions
  let weighted := normalized.map (fun row =>
    row.enum.map (fun p => p.2 * weights.getD p.1 0))
  let pis := (List.range nc).map (fun j =>
    if dirAt directions j = Direction.max then jsMax (col weighted j)
    else jsMin (col weighted j))
  let nis := (List.range nc).map (fun j =>
    if dirAt directions j = Direction.max then jsMin (col weighted j)
    else jsMax (col weighted j))
  let dPlus := (List.range matrix.length).map (fun i =>
    sqrt ((List.range nc).foldl (fun s j =>
      s + ((weighted.getD i []).getD j 0 - pis.getD j 0) ^ 2) 0))
  let dMinus := (List.range matrix.length).map (fun i =>
    sqrt ((List.range nc).foldl (fun s j =>
      s + ((weighted.getD i []).getD j 0 - nis.getD j 0) ^ 2) 0))
  let scores := (List.range matrix.length).map (fun i =>
    dMinus.getD i 0 / (dPlus.getD i 0 + dMinus.getD i 0 + 1/10000))
  { scores := scores, ranking := rankFrom scores }

/-- VIKOR: best/worst raw values, `S`/`R` deviation aggregates, rescaled
`Q = v*sNorm + (1-v)*rNorm`; lower `Q` ranks first, reported score `1 - Q`. -/
def VIKOR (matrix : List (List K)) (weights : List K) (directions : List Direction)
    (v : K) : MCDMResult K :=
  let nc := numCrit matrix
  let fStar := (List.range nc).map (fun j =>
    if dirAt directions j = Direction.max then jsMax (col matrix j)
    else jsMin (col matrix j))
  let fMinus := (List.range nc).map (fun j =>
    if dirAt directions j = Direction.max then jsMin (col matrix j)
    else jsMax (col matrix j))
  let S := (List.range matrix.length).map (fun i =>
    (List.range nc).foldl (fun s j =>
      s + weights.getD j 0 * |fStar.getD j 0 - (matrix.getD i []).getD j 0| /
        jsOr (fStar.getD j 0 - fMinus.getD j 0) 1) 0)
  let R := (List.range matrix.length).map (fun i =>
    (List.range nc).foldl (fun r j =>
      max r (weights.getD j 0 * |fStar.getD j 0 - (matrix.getD i []).getD j 0| /
        jsOr (fStar.getD j 0 - fMinus.getD j 0) 1)) 0)
  let sStar := jsMin S
  let sMinus := jsMax S
  let rStar := jsMin R
  let rMinus := jsMax R
  let Q := (List.range matrix.length).map (fun i =>
    v * ((S.getD i 0 - sStar) / jsOr (sMinus - sStar) 1) +
    (1 - v) * ((R.getD i 0 - rStar) / jsOr (rMinus - rStar) 1))
  { scores := Q.map (fun q => 1 - q), ranking := rankFrom (Q.map (fun q => -q)) }

/-- MOORA ratio system: vector normalize, signed weighted sum. -/
def MOORA (sqrt : K → K) (matrix : List (List K)) (weights : List K)
    (directions : List Direction) : MCDMResult K :=
  let nc := numCrit matrix
  let normalized := Normalization.vector sqrt matrix directions
  let scores := normalized.map (fun row =>
    (List.range nc).foldl (fun s j =>
      let weighted := row.getD j 0 * weights.getD j 0
      s + (if dirAt directions j = Direction.max then weighted else -weighted)) 0)
  { scores := scores, ranking := rankFrom scores }

/-- WASPAS: `lambda * SAW + (1 - lambda) * WPM`. -/
def WASPAS (rpow : K → K → K) (matrix : List (List K)) (weights : List K)
    (directions : List Direction) (lambda : K) : MCDMResult K :=
  let wsmResult := SAW matrix weights directions
  let wpmResult := WPM rpow matrix weights directions
  let scores := wsmResult.scores.enum.map (fun p =>
    lambda * p.2 + (1 - lambda) * wpmResult.scores.getD p.1 0)
  { scores := scores, ranking := rankFrom scores }

/-- The COPRAS relative-significance list
`Q_i = S+_i + sMinusSum / (S-_i * Σ(1/S-_k) || 1)`. -/
def COPRAS_Q (matrix : List (List K)) (weights : List K)
    (directions : List Direction) : List K :=
  let nc := numCrit matrix
  let normalized := Normalization.sum matrix directions
  let sPlus := (List.range matrix.length).map (fun i =>
    (List.range nc).foldl (fun s j =>
      if dirAt directions j = Direction.max
      then s + (normalized.getD i []).getD j 0 * weights.getD j 0 else s) 0)
  let sMinus := (List.range matrix.length).map (fun i =>
    (List.range nc).foldl (fun s j =>
      if dirAt directions j = Direction.max
      then s else s + (normalized.getD i []).getD j 0 * weights.getD j 0) 0)
  let sMinusSum := sMinus.foldl (fun a b => a + b) 0
  (List.range matrix.length).map (fun i =>
    sPlus.getD i 0 +
      sMinusSum / jsOr (sMinus.getD i 0 * (sMinus.foldl (fun s x => s + 1 / x) 0)) 1)

/-- `Math.max(...Q)`: the denominator of COPRAS's final utility division.
The source divides by it with NO `|| 1` guard. -/
def COPRAS_qMax (matrix : List (List K)) (weights : List K)
    (directions : List Direction) : K :=
  jsMax (COPRAS_Q matrix weights directions)

/-- COPRAS: sum-normalize, split benefit/cost sums, relative significance
`Q`, utility `scores = Q.map(q => q / qMax * 100)` (unguarded division). -/
def COPRAS (matrix : List (List K)) (weights : List K)
    (directions : List Direction) : MCDMResult K :=
  let Q := COPRAS_Q matrix weights directions
  let qMax := COPRAS_qMax matrix weights directions
  let scores := Q.map (fun q => q / qMax * 100)
  { scores := scores, ranking := rankFrom scores }

/-- EDAS: positive/negative distances from the per-column average (guarded
`|| 1`), weighted sums, max-normalized appraisal score. -/
def EDAS (matrix : List (List K)) (weights : List K)
    (directions : List Direction) : MCDMResult K :=
  let nc := numCrit matrix
  let avg := fun j =>
    (col matrix j).foldl (fun s v => s + v) 0 / (matrix.length : K)
  let PDA := matrix.map (fun row =>
    ((List.range nc).map (fun j =>
      let diff := row.getD j 0 - avg j
      if dirAt directions j = Direction.max
      then max 0 diff / jsOr (avg j) 1
      else max 0 (-diff) / jsOr (avg j) 1)) ++
    (row.drop nc).map (fun _ => (0 : K)))
  let NDA := matrix.map (fun row =>
    ((List.range nc).map (fun j =>
      let diff := row.getD j 0 - avg j
      if dirAt directions j = Direction.max
      then max 0 (-diff) / jsOr (avg j) 1
      else max 0 diff / jsOr (avg j) 1)) ++
    (row.drop nc).map (fun _ => (0 : K)))
  let SP := PDA.map (fun row =>
    row.enum.foldl (fun s p => s + p.2 * weights.getD p.1 0) 0)
  let SN := NDA.map (fun row =>
    row.enum.foldl (fun s p => s + p.2 * weights.getD p.1 0) 0)
  let NSP := SP.map (fun sp => sp / jsOr (jsMax SP) 1)
  let NSN := SN.map (fun sn => 1 - sn / jsOr (jsMax SN) 1)
  let scores := NSP.enum.map (fun p => (p.2 + NSN.getD p.1 0) / 2)
  { scores := scores, ranking := rankFrom scores }

/-- CODAS: linear-max normalize, weight, negative-ideal solution, Euclidean
and taxicab distances, `tau`-thresholded relative assessment row sums. -/
def CODAS (sqrt : K → K) (matrix : List (List K)) (weights : List K)
    (directions : List Direction) (tau : K) : MCDMResult K :=
  let nc := numCrit matrix
  let normalized := Normalization.linearMax matrix directions
  let weighted := normalized.map (fun row =>
    row.enum.map (fun p => p.2 * weights.getD p.1 0))
  let nis := (List.range nc).map (fun j => jsMin (col weighted j))
  let E := (List.range matrix.length).map (fun i =>
    sqrt ((List.range nc).foldl (fun s j =>
      let diff := (weighted.getD i []).getD j 0 - nis.getD j 0
      s + diff * diff) 0))
  let T := (List.range matrix.length).map (fun i =>
    (List.range nc).foldl (fun s j =>
      s + |(weighted.getD i []).getD j 0 - nis.getD j 0|) 0)
  let scores := (List.range matrix.length).map (fun i =>
    (List.range matrix.length).foldl (fun s k =>
      let eDiff := E.getD i 0 - E.getD k 0
      let psi : K := if tau ≤ |eDiff| then 1 else 0
      s + (eDiff + psi * (T.getD i 0 - T.getD k 0))) 0)
  { scores := scores, ranking := rankFrom scores }

/-- ARAS: prepend the per-column direction-best "optimal" alternative,
sum-normalize the extended matrix, weight, utility `S_i / (S_0 || 1)`. -/
def ARAS (matrix : List (List K)) (weights : List K)
    (directions : List Direction) : MCDMResult K :=
  let nc := numCrit matrix
  let optimal := (List.range nc).map (fun j =>
    if dirAt directions j = Direction.max then jsMax (col matrix j)
    else jsMin (col matrix j))
  let extMatrix := optimal :: matrix
  let normalized := Normalization.sum extMatrix directions
  let weighted := normalized.map (fun row =>
    row.enum.map (fun p => p.2 * weights.getD p.1 0))
  let S := weighted.map (fun row => row.foldl (fun s v => s + v) 0)
  let S0 := S.getD 0 0
  let scores := (S.drop 1).map (fun s => s / jsOr S0 1)
  { scores := scores, ranking := rankFrom scores }

/-! ## Method dispatcher -/

/-- `.replace(/[- ]/g, '')`: remove every hyphen and space. -/
def stripSeparators (s : List Char) : List Char :=
  s.filter (fun c => decide (c ≠ '-' ∧ c ≠ ' '))

/-- Replace the FIRST occurrence of `pat` in `s` by `rep`, the semantics of
JS `String.prototype.replace` with a plain-string pattern (scan left to
right, substitute once). -/
def replaceFirstChars (s pat rep : List Char) : List Char :=
  match s with
  | [] => []
  | c :: rest =>
    if pat.isPrefixOf (c :: rest) then rep ++ (c :: rest).drop pat.length
    else c :: replaceFirstChars rest pat rep

/-- `methodName.toUpperCase().replace(/[- ]/g, '').replace('WSM', 'SAW')`,
modelled on the character list of the string so it evaluates. -/
def normalizeMethodName (s : String) : String :=
  String.mk (replaceFirstChars (stripSeparators (s.data.map Char.toUpper))
    "WSM".data "SAW".data)

/-- The case labels of the dispatcher's switch statement. -/
def methodTable : List String :=
  ["SAW", "WSM", "WEIGHTEDSUM", "WPM", "WEIGHTEDPRODUCT", "TOPSIS", "VIKOR",
   "MOORA", "MULTIMOORA", "WASPAS", "COPRAS", "EDAS", "CODAS", "ARAS"]

/-- The `options` record; JS reads `options.v || 0.5` etc., so absent fields
are modelled by `0` together with the `jsOr` default. -/
structure MCDMCallOpts (K : Type) where
  v : K
  lambda : K
  tau : K

/-- The method dispatcher `calculateMCDM`: switch on the normalized method
name, defaulting to TOPSIS for unrecognized names. -/
def calculateMCDM (sqrt : K → K) (rpow : K → K → K) (methodName : String)
    (matrix : List (List K)) (weights : List K) (directions : List Direction)
    (options : MCDMCallOpts K) : MCDMResult K :=
  let n := normalizeMethodName methodName
  if n = "SAW" ∨ n = "WSM" ∨ n = "WEIGHTEDSUM" then SAW matrix weights directions
  else if n = "WPM" ∨ n = "WEIGHTEDPRODUCT" then WPM rpow matrix weights directions
  else if n = "TOPSIS" then TOPSIS sqrt matrix weights directions
  else if n = "VIKOR" then VIKOR matrix weights directions (jsOr options.v (1/2))
  else if n = "MOORA" ∨ n = "MULTIMOORA" then MOORA sqrt matrix weights directions
  else if n = "WASPAS" then WASPAS rpow matrix weights directions (jsOr options.lambda (1/2))
  else if n = "COPRAS" then COPRAS matrix weights directions
  else if n = "EDAS" then EDAS matrix weights directions
  else if n = "CODAS" then CODAS sqrt matrix weights directions (jsOr options.tau (1/50))
  else if n = "ARAS" then ARAS matrix weights directions
  else TOPSIS sqrt matrix weights directions

/-! ## Fuzzy number kernel -/

/-- Triangular fuzzy number `{ l, m, u }`. -/
structure TriangularFuzzyNumber (K : Type) where
  l : K
  m : K
  u : K
deriving DecidableEq

/-- Well-formedness convention `lower ≤ middle ≤ upper` (not enforced by
the arithmetic operators). -/
def TriangularFuzzyNumber.WellFormed (t : TriangularFuzzyNumber K) : Prop :=
  t.l ≤ t.m ∧ t.m ≤ t.u

namespace Defuzzification

/-- Centroid defuzzification `(l + m + u) / 3`. -/
def centroid (tfn : TriangularFuzzyNumber K) : K := (tfn.l + tfn.m + tfn.u) / 3

/-- Graded mean integration `(l + 4m + u) / 6`. -/
def gradedMean (tfn : TriangularFuzzyNumber K) : K :=
  (tfn.l + 4 * tfn.m + tfn.u) / 6

/-- Mean of maximum: the middle value. -/
def meanOfMaximum (tfn : TriangularFuzzyNumber K) : K := tfn.m

/-- Alpha-cut defuzzification: average of the two interpolated bounds. -/
def alphaCut (tfn : TriangularFuzzyNumber K) (alpha : K) : K :=
  ((tfn.l + alpha * (tfn.m - tfn.l)) + (tfn.u - alpha * (tfn.u - tfn.m))) / 2

end Defuzzification

namespace FuzzyArithmetic

/-- Componentwise fuzzy addition. -/
def add (a b : TriangularFuzzyNumber K) : TriangularFuzzyNumber K :=
  { l := a.l + b.l, m := a.m + b.m, u := a.u + b.u }

/-- Fuzzy subtraction swaps the bound order:
`a - b = (a.l - b.u, a.m - b.m, a.u - b.l)`. -/
def subtract (a b : TriangularFuzzyNumber K) : TriangularFuzzyNumber K :=
  { l := a.l - b.u, m := a.m - b.m, u := a.u - b.l }

/-- Componentwise fuzzy multiplication. -/
def multiply (a b : TriangularFuzzyNumber K) : TriangularFuzzyNumber K :=
  { l := a.l * b.l, m := a.m * b.m, u := a.u * b.u }

/-- Scalar multiplication. -/
def scalarMultiply (a : TriangularFuzzyNumber K) (k : K) : TriangularFuzzyNumber K :=
  { l := a.l * k, m := a.m * k, u := a.u * k }

/-- Componentwise fuzzy division with zero-denominator guards. -/
def divide (a b : TriangularFuzzyNumber K) : TriangularFuzzyNumber K :=
  { l := if b.u ≠ 0 then a.l / b.u else 0,
    m := if b.m ≠ 0 then a.m / b.m else 0,
    u := if b.l ≠ 0 then a.u / b.l else 0 }

/-- Euclidean-style distance `sqrt(Σ diff²) / sqrt(3)`. -/
def distance (sqrt : K → K) (a b : TriangularFuzzyNumber K) : K :=
  sqrt ((a.l - b.l) ^ 2 + (a.m - b.m) ^ 2 + (a.u - b.u) ^ 2) / sqrt 3

end FuzzyArithmetic

namespace FuzzyAggregation

/-- Componentwise arithmetic mean; empty input yields the zero number. -/
def arithmeticMean (numbers : List (TriangularFuzzyNumber K)) :
    TriangularFuzzyNumber K :=
  if numbers.length = 0 then ⟨0, 0, 0⟩ else
  { l := (numbers.foldl (fun s fn => s + fn.l) 0) / (numbers.length : K),
    m := (numbers.foldl (fun s fn => s + fn.m) 0) / (numbers.length : K),
    u := (numbers.foldl (fun s fn => s + fn.u) 0) / (numbers.length : K) }

/-- Componentwise geometric mean
`Math.pow(numbers.reduce((prod, fn) => prod * (fn.c || 0.001), 1), 1/n)`. -/
def geometricMean (rpow : K → K → K) (numbers : List (TriangularFuzzyNumber K)) :
    TriangularFuzzyNumber K :=
  if numbers.length = 0 then ⟨0, 0, 0⟩ else
  { l := rpow (numbers.foldl (fun p fn => p * jsOr fn.l (1/1000)) 1) (1 / (numbers.length : K)),
    m := rpow (numbers.foldl (fun p fn => p * jsOr fn.m (1/1000)) 1) (1 / (numbers.length : K)),
    u := rpow (numbers.foldl (fun p fn => p * jsOr fn.u (1/1000)) 1) (1 / (numbers.length : K)) }

end FuzzyAggregation

namespace FuzzyNormalization

/-- Linear normalization for benefit criteria: divide by the column max. -/
def linearBenefit (value : TriangularFuzzyNumber K) (maxv : K) :
    TriangularFuzzyNumber K :=
  { l := if maxv ≠ 0 then value.l / maxv else 0,
    m := if maxv ≠ 0 then value.m / maxv else 0,
    u := if maxv ≠ 0 then value.u / maxv else 0 }

/-- Linear normalization for cost criteria: column min over the swapped
bounds. -/
def linearCost (value : TriangularFuzzyNumber K) (minv : K) :
    TriangularFuzzyNumber K :=
  { l := if value.u ≠ 0 then minv / value.u else 0,
    m := if value.m ≠ 0 then minv / value.m else 0,
    u := if value.l ≠ 0 then minv / value.l else 0 }

end FuzzyNormalization

/-- The `TriangularFuzzyNumber[] | number[]` weight union of `fuzzyTOPSIS`. -/
inductive FuzzyOrCrisp (K : Type)
  | crisp (x : K)
  | fuzzy (t : TriangularFuzzyNumber K)

/-- `typeof w === 'number' ? { l: w, m: w, u: w } : w`. -/
def FuzzyOrCrisp.toFuzzy : FuzzyOrCrisp K → TriangularFuzzyNumber K
  | .crisp w => ⟨w, w, w⟩
  | .fuzzy t => t

/-- The argument of the unguarded `Math.min(...)` in the cost branch of
`fuzzyTOPSIS`: `colValues.map(v => v.l).filter(v => v > 0)`, the strictly
positive lower bounds of column `j`.  In JS, when this list is empty,
`Math.min()` returns `+Infinity`, which a field-valued model cannot
represent (`jsMin [] = 0` is junk): statements about the cost branch must
either assume this list non-empty or exhibit its emptiness. -/
def fuzzyCostSpread (matrix : List (List (TriangularFuzzyNumber K))) (j : ℕ) :
    List K :=
  ((matrix.map (fun row => row.getD j ⟨0, 0, 0⟩)).map (fun v => v.l)).filter
    (fun v => decide (0 < v))

/-- Fuzzy TOPSIS: linear-normalize by column max (benefit) / positive column
min (cost), fuzzy-weight, componentwise fuzzy ideals, summed fuzzy distances
and the same `dm / (dp + dm + 0.0001)` closeness coefficient.  The cost
branch's column minimum `jsMin (fuzzyCostSpread matrix j)` models the
source's `Math.min(...colValues.map(v => v.l).filter(v => v > 0))`, which
has NO zero-or-empty guard; the model is value-faithful only while that
spread is non-empty (otherwise JS produces `+Infinity`, and `NaN` scores
downstream). -/
def fuzzyTOPSIS (sqrt : K → K) (matrix : List (List (TriangularFuzzyNumber K)))
    (weights : List (FuzzyOrCrisp K)) (directions : List Direction) :
    MCDMResult K :=
  let numAlts := matrix.length
  let nc := (matrix.headD []).length
  if numAlts = 0 ∨ nc = 0 then { scores := [], ranking := [] } else
  let fuzzyWeights := weights.map FuzzyOrCrisp.toFuzzy
  let cellAt := fun (i j : ℕ) => (matrix.getD i []).getD j ⟨0, 0, 0⟩
  let normalizedMatrix := (List.range numAlts).map (fun i =>
    (List.range nc).map (fun j =>
      let colValues := matrix.map (fun row => row.getD j ⟨0, 0, 0⟩)
      if dirAt directions j = Direction.max then
        FuzzyNormalization.linearBenefit (cellAt i j)
          (jsMax (colValues.map (fun v => v.u)))
      else
        FuzzyNormalization.linearCost (cellAt i j)
          (jsMin (fuzzyCostSpread matrix j))))
  let weightedMatrix := normalizedMatrix.map (fun row =>
    row.enum.map (fun p =>
      FuzzyArithmetic.multiply p.2 (fuzzyWeights.getD p.1 ⟨0, 0, 0⟩)))
  let wcol := fun j => (weightedMatrix.map (fun row => row.getD j ⟨0, 0, 0⟩))
  let FPIS := (List.range nc).map (fun j =>
    if dirAt directions j = Direction.max then
      (⟨jsMax ((wcol j).map (fun v => v.l)), jsMax ((wcol j).map (fun v => v.m)),
        jsMax ((wcol j).map (fun v => v.u))⟩ : TriangularFuzzyNumber K)
    else
      ⟨jsMin ((wcol j).map (fun v => v.l)), jsMin ((wcol j).map (fun v => v.m)),
        jsMin ((wcol j).map (fun v => v.u))⟩)
  let FNIS := (List.range nc).map (fun j =>
    if dirAt directions j = Direction.max then
      (⟨jsMin ((wcol j).map (fun v => v.l)), jsMin ((wcol j).map (fun v => v.m)),
        jsMin ((wcol j).map (fun v => v.u))⟩ : TriangularFuzzyNumber K)
    else
      ⟨jsMax ((wcol j).map (fun v => v.l)), jsMax ((wcol j).map (fun v => v.m)),
        jsMax ((wcol j).map (fun v => v.u))⟩)
  let dPlus := (List.range numAlts).map (fun i =>
    (List.range nc).foldl (fun s j =>
      s + FuzzyArithmetic.distance sqrt ((weightedMatrix.getD i []).getD j ⟨0, 0, 0⟩)
        (FPIS.getD j ⟨0, 0, 0⟩)) 0)
  let dMinus := (List.range numAlts).map (fun i =>
    (List.range nc).foldl (fun s j =>
      s + FuzzyArithmetic.distance sqrt ((weightedMatrix.getD i []).getD j ⟨0, 0, 0⟩)
        (FNIS.getD j ⟨0, 0, 0⟩)) 0)
  let scores := (List.range numAlts).map (fun i =>
    dMinus.getD i 0 / (dPlus.getD i 0 + dMinus.getD i 0 + 1/10000))
  { scores := scores, ranking := rankFrom scores }

/-! ## Fuzzification and expert aggregation -/

namespace Fuzzification

/-- Spread-percentage fuzzification: `delta = crisp * spread`,
lower clamped at `0` by `Math.max`. -/
def triangularSpread (crisp spread : K) : TriangularFuzzyNumber K :=
  { l := max 0 (crisp - crisp * spread),
    m := crisp,
    u := crisp + crisp * spread }

end Fuzzification

/-- The `'geometric' | 'arithmetic'` union of `aggregateExpertEvaluations`. -/
inductive AggMethod
  | geometric
  | arithmetic
deriving DecidableEq

/-- Aggregate expert matrices cellwise by geometric or arithmetic mean. -/
def aggregateExpertEvaluations (rpow : K → K → K)
    (expertMatrices : List (List (List (TriangularFuzzyNumber K))))
    (method : AggMethod) : List (List (TriangularFuzzyNumber K)) :=
  if expertMatrices.length = 0 then [] else
  let numAlts := (expertMatrices.getD 0 []).length
  let nc := ((expertMatrices.getD 0 []).headD []).length
  (List.range numAlts).map (fun i =>
    (List.range nc).map (fun j =>
      let expertValues := expertMatrices.map (fun mat =>
        (mat.getD i []).getD j ⟨0, 0, 0⟩)
      match method with
      | .geometric => FuzzyAggregation.geometricMean rpow expertValues
      | .arithmetic => FuzzyAggregation.arithmeticMean expertValues))

/-! ## Executable rational models of `Math.sqrt` and `Math.pow`

Used to instantiate the abstract `sqrt` / `rpow` parameters in witnesses.
`ratSqrt` agrees with the real square root on every perfect rational square
and is nonnegative everywhere, which is all the ranking computations of the
witnesses depend on. -/

/-- Rational square root: exact on perfect rational squares, `0` elsewhere. -/
def ratSqrt (q : ℚ) : ℚ :=
  if 0 ≤ q ∧ q.num.natAbs = Nat.sqrt q.num.natAbs ^ 2 ∧
      q.den = Nat.sqrt q.den ^ 2 then
    (Nat.sqrt q.num.natAbs : ℚ) / (Nat.sqrt q.den : ℚ)
  else 0

/-- Rational model of `Math.pow`, exact at the exponents the witnesses use. -/
def ratPow (x e : ℚ) : ℚ :=
  if e = -1 then x⁻¹
  else if e = 1/2 then ratSqrt x
  else if e = 1 then x
  else 1

/-! ## Basic lemmas about the JS helpers -/

theorem jsOr_pos {x d : K} (hx : 0 ≤ x) (hd : 0 < d) : 0 < jsOr x d := by
  unfold jsOr
  split
  · exact hd
  · rename_i h
    exact lt_of_le_of_ne hx (Ne.symm h)

theorem foldl_max_init_le (xs : List K) (a : K) : a ≤ xs.foldl max a := by
  induction xs generalizing a with
  | nil => exact le_refl a
  | cons b bs ih => exact le_trans (le_max_left a b) (ih (max a b))

theorem le_foldl_max {xs : List K} {x : K} (a : K) (hx : x ∈ xs) :
    x ≤ xs.foldl max a := by
  induction xs generalizing a with
  | nil => cases hx
  | cons b bs ih =>
    rcases List.mem_cons.mp hx with h | h
    · subst h
      exact le_trans (le_max_right a x) (foldl_max_init_le bs _)
    · exact ih _ h

theorem foldl_max_mem (xs : List K) (a : K) :
    xs.foldl max a = a ∨ xs.foldl max a ∈ xs := by
  induction xs generalizing a with
  | nil => exact Or.inl rfl
  | cons b bs ih =>
    rcases ih (max a b) with h | h
    · rcases max_choice a b with hm | hm
      · exact Or.inl (by rw [List.foldl_cons, h, hm])
      · exact Or.inr (by rw [List.foldl_cons, h, hm]; exact List.mem_cons_self b bs)
    · exact Or.inr (List.mem_cons_of_mem b h)

theorem le_foldl_min (xs : List K) (a : K) : xs.foldl min a ≤ a := by
  induction xs generalizing a with
  | nil => exact le_refl a
  | cons b bs ih => exact le_trans (ih (min a b)) (min_le_left a b)

theorem foldl_min_le {xs : List K} {x : K} (a : K) (hx : x ∈ xs) :
    xs.foldl min a ≤ x := by
  induction xs generalizing a with
  | nil => cases hx
  | cons b bs ih =>
    rcases List.mem_cons.mp hx with h | h
    · subst h
      exact le_trans (le_foldl_min bs _) (min_le_right a x)
    · exact ih _ h

theorem foldl_min_mem (xs : List K) (a : K) :
    xs.foldl min a = a ∨ xs.foldl min a ∈ xs := by
  induction xs generalizing a with
  | nil => exact Or.inl rfl
  | cons b bs ih =>
    rcases ih (min a b) with h | h
    · rcases min_choice a b with hm | hm
      · exact Or.inl (by rw [List.foldl_cons, h, hm])
      · exact Or.inr (by rw [List.foldl_cons, h, hm]; exact List.mem_cons_self b bs)
    · exact Or.inr (List.mem_cons_of_mem b h)

theorem le_jsMax {l : List K} {x : K} (hx : x ∈ l) : x ≤ jsMax l := by
  cases l with
  | nil => cases hx
  | cons a xs =>
    rcases List.mem_cons.mp hx with h | h
    · subst h
      exact foldl_max_init_le xs x
    · exact le_foldl_max a h

theorem jsMax_mem {l : List K} (h : l ≠ []) : jsMax l ∈ l := by
  cases l with
  | nil => exact absurd rfl h
  | cons a xs =>
    show xs.foldl max a ∈ a :: xs
    rcases foldl_max_mem xs a with h' | h'
    · rw [h']
      exact List.mem_cons_self a xs
    · exact List.mem_cons_of_mem a h'

theorem jsMin_le {l : List K} {x : K} (hx : x ∈ l) : jsMin l ≤ x := by
  cases l with
  | nil => cases hx
  | cons a xs =>
    rcases List.mem_cons.mp hx with h | h
    · subst h
      exact le_foldl_min xs x
    · exact foldl_min_le a h

theorem jsMin_mem {l : List K} (h : l ≠ []) : jsMin l ∈ l := by
  cases l with
  | nil => exact absurd rfl h
  | cons a xs =>
    show xs.foldl min a ∈ a :: xs
    rcases foldl_min_mem xs a with h' | h'
    · rw [h']
      exact List.mem_cons_self a xs
    · exact List.mem_cons_of_mem a h'

/-! ## The rank list is a permutation of 1..N -/

theorem rankP_self (scores : List K) (i : ℕ) : rankP scores i i = false := by
  simp [rankP]

theorem countP_lt_countP {α : Type} {p q : α → Bool} {l : List α}
    (hpq : ∀ a ∈ l, p a = true → q a = true) {a : α} (ha : a ∈ l)
    (hqa : q a = true) (hpa : p a = false) : l.countP p < l.countP q := by
  induction l with
  | nil => cases ha
  | cons x xs ih =>
    rw [List.countP_cons, List.countP_cons]
    rcases List.mem_cons.mp ha with h | h
    · subst h
      have hn : ¬ p a = true := by
        rw [hpa]
        exact Bool.false_ne_true
      rw [if_neg hn, if_pos hqa]
      have hmono : List.countP p xs ≤ List.countP q xs :=
        List.countP_mono_left (fun b hb hp => hpq b (List.mem_cons_of_mem a hb) hp)
      omega
    · have hstep := ih (fun b hb hp => hpq b (List.mem_cons_of_mem x hb) hp) h
      by_cases hx : p x = true
      · rw [if_pos hx, if_pos (hpq x (List.mem_cons_self x xs) hx)]
        omega
      · rw [if_neg hx]
        by_cases hq : q x = true
        · rw [if_pos hq]
          omega
        · rw [if_neg hq]
          omega

theorem rank_count_lt {scores : List K} {i : ℕ} (hi : i < scores.length) :
    (List.range scores.length).countP (rankP scores i) < scores.length := by
  have hle : (List.range scores.length).countP (rankP scores i) ≤ scores.length := by
    simpa using List.countP_le_length (l := List.range scores.length) (rankP scores i)
  rcases lt_or_eq_of_le hle with h | h
  · exact h
  · exfalso
    have hlen : (List.range scores.length).countP (rankP scores i) =
        (List.range scores.length).length := by
      rw [List.length_range]
      exact h
    have hall := List.countP_eq_length.mp hlen
    have htrue := hall i (List.mem_range.mpr hi)
    rw [rankP_self] at htrue
    exact Bool.false_ne_true htrue

theorem rank_count_lt_of_lt {scores : List K} {i j : ℕ} (hij : i < j)
    (hj : j < scores.length) :
    (List.range scores.length).countP (rankP scores i) ≠
      (List.range scores.length).countP (rankP scores j) := by
  have hi : i < scores.length := lt_trans hij hj
  have hmemi : i ∈ List.range scores.length := List.mem_range.mpr hi
  have hmemj : j ∈ List.range scores.length := List.mem_range.mpr hj
  rcases lt_trichotomy (scores.getD i 0) (scores.getD j 0) with hlt | heq | hgt
  · -- `s_i < s_j`: everything before `j` is before `i`, and `j` itself is
    -- before `i` but not before itself.
    have hmono : ∀ k ∈ List.range scores.length,
        rankP scores j k = true → rankP scores i k = true := by
      intro k _ hk
      rcases of_decide_eq_true hk with h | h
      · exact decide_eq_true (Or.inl (lt_trans hlt h))
      · exact decide_eq_true (Or.inl (h.2 ▸ hlt))
    have hji : rankP scores i j = true := decide_eq_true (Or.inl hlt)
    exact (Nat.ne_of_gt (countP_lt_countP hmono hmemj hji (rankP_self scores j)))
  · -- equal scores: ties are broken by position, `i` is before `j`.
    have hmono : ∀ k ∈ List.range scores.length,
        rankP scores i k = true → rankP scores j k = true := by
      intro k _ hk
      rcases of_decide_eq_true hk with h | h
      · exact decide_eq_true (Or.inl (heq ▸ h))
      · exact decide_eq_true (Or.inr ⟨lt_trans h.1 hij, h.2.trans heq⟩)
    have hij' : rankP scores j i = true := decide_eq_true (Or.inr ⟨hij, heq⟩)
    exact Nat.ne_of_lt (countP_lt_countP hmono hmemi hij' (rankP_self scores i))
  · -- `s_j < s_i`: symmetric to the first case.
    have hmono : ∀ k ∈ List.range scores.length,
        rankP scores i k = true → rankP scores j k = true := by
      intro k _ hk
      rcases of_decide_eq_true hk with h | h
      · exact decide_eq_true (Or.inl (lt_trans hgt h))
      · exact decide_eq_true (Or.inl (h.2 ▸ hgt))
    have hij' : rankP scores j i = true := decide_eq_true (Or.inl hgt)
    exact Nat.ne_of_lt (countP_lt_countP hmono hmemi hij' (rankP_self scores i))

/-- The property claimed of every ranking: it is exactly a permutation of
`{1, …, N}`. -/
def isRankPermutation (l : List ℕ) (N : ℕ) : Prop :=
  l.Perm ((List.range N).map (· + 1))

theorem rankFrom_isRankPermutation (scores : List K) :
    isRankPermutation (rankFrom scores) scores.length := by
  set N := scores.length with hN
  set f : ℕ → ℕ := fun i => (List.range N).countP (rankP scores i) with hf
  have hinj : ∀ x ∈ List.range N, ∀ y ∈ List.range N, f x = f y → x = y := by
    intro x hx y hy hxy
    by_contra hne
    rcases Nat.lt_or_ge x y with h | h
    · exact rank_count_lt_of_lt h (List.mem_range.mp hy) hxy
    · have h' : y < x := lt_of_le_of_ne h (fun e => hne e.symm)
      exact rank_count_lt_of_lt h' (List.mem_range.mp hx) hxy.symm
  have hnodup : ((List.range N).map f).Nodup :=
    List.Nodup.map_on hinj (List.nodup_range N)
  have hsubset : (List.range N).map f ⊆ List.range N := by
    intro x hx
    rcases List.mem_map.mp hx with ⟨i, hi, hfi⟩
    have := @rank_count_lt K _ scores i (List.mem_range.mp hi)
    exact List.mem_range.mpr (hfi ▸ this)
  have hperm : List.Perm ((List.range N).map f) (List.range N) :=
    (List.Nodup.subperm hnodup hsubset).perm_of_length_le (by simp)
  have hperm2 : List.Perm (((List.range N).map f).map (1 + ·))
      ((List.range N).map (1 + ·)) :=
    hperm.map (1 + ·)
  have heq1 : rankFrom scores = ((List.range N).map f).map (1 + ·) := by
    rw [List.map_map]
    rfl
  have heq2 : (List.range N).map (1 + ·) = (List.range N).map (· + 1) := by
    exact List.map_congr_left (fun a _ => Nat.add_comm 1 a)
  unfold isRankPermutation
  rw [heq1, ← heq2]
  exact hperm2

theorem rankFrom_isRankPermutation' (scores : List K) (N : ℕ)
    (h : scores.length = N) : isRankPermutation (rankFrom scores) N :=
  h ▸ rankFrom_isRankPermutation scores

/-- C2.  For every ranking algorithm among the ten (and for fuzzy TOPSIS on
a non-degenerate fuzzy matrix) the returned ranking is exactly a permutation
of `{1, …, N}` where `N` is the number of alternatives. -/
theorem C2_rank_is_permutation {K : Type} [LinearOrderedField K]
    (sqrt : K → K) (rpow : K → K → K) (matrix : List (List K))
    (weights : List K) (directions : List Direction) (v lambda tau : K)
    (fmatrix : List (List (TriangularFuzzyNumber K)))
    (fweights : List (FuzzyOrCrisp K))
    (hfm : 0 < fmatrix.length) (hfc : 0 < (fmatrix.headD []).length) :
    isRankPermutation (SAW matrix weights directions).ranking matrix.length ∧
    isRankPermutation (WPM rpow matrix weights directions).ranking matrix.length ∧
    isRankPermutation (TOPSIS sqrt matrix weights directions).ranking matrix.length ∧
    isRankPermutation (VIKOR matrix weights directions v).ranking matrix.length ∧
    isRankPermutation (MOORA sqrt matrix weights directions).ranking matrix.length ∧
    isRankPermutation (WASPAS rpow matrix weights directions lambda).ranking matrix.length ∧
    isRankPermutation (COPRAS matrix weights directions).ranking matrix.length ∧
    isRankPermutation (EDAS matrix weights directions).ranking matrix.length ∧
    isRankPermutation (CODAS sqrt matrix weights directions tau).ranking matrix.length ∧
    isRankPermutation (ARAS matrix weights directions).ranking matrix.length ∧
    isRankPermutation (fuzzyTOPSIS sqrt fmatrix fweights directions).ranking
      fmatrix.length := by
  refine ⟨?_, ?_, ?_, ?_, ?_, ?_, ?_, ?_, ?_, ?_, ?_⟩
  · exact rankFrom_isRankPermutation' _ _ (by simp [SAW, Normalization.linearMax])
  · exact rankFrom_isRankPermutation' _ _ (by simp [WPM])
  · exact rankFrom_isRankPermutation' _ _ (by simp [TOPSIS])
  · exact rankFrom_isRankPermutation' _ _ (by simp [VIKOR])
  · exact rankFrom_isRankPermutation' _ _ (by simp [MOORA, Normalization.vector])
  · exact rankFrom_isRankPermutation' _ _ (by simp [WASPAS, SAW, Normalization.linearMax])
  · exact rankFrom_isRankPermutation' _ _ (by simp [COPRAS, COPRAS_Q])
  · exact rankFrom_isRankPermutation' _ _ (by simp [EDAS])
  · exact rankFrom_isRankPermutation' _ _ (by simp [CODAS])
  · exact rankFrom_isRankPermutation' _ _ (by simp [ARAS, Normalization.sum])
  · have h0 : ¬ (fmatrix.length = 0 ∨ (List.headD fmatrix []).length = 0) := by
      push_neg
      omega
    unfold fuzzyTOPSIS
    rw [if_neg h0]
    exact rankFrom_isRankPermutation' _ _ (by simp)

/-- C2 witness: the permutation property at a concrete 2-alternative input. -/
theorem C2_rank_is_permutation_witness :
    isRankPermutation (SAW [[(1:ℚ),2],[3,4]] [1/2, 1/2]
      [Direction.max, Direction.min]).ranking 2 ∧
    isRankPermutation (fuzzyTOPSIS ratSqrt
      [[({l := 1, m := 2, u := 3} : TriangularFuzzyNumber ℚ)], [{l := 2, m := 3, u := 4}]]
      [FuzzyOrCrisp.crisp 1] [Direction.max]).ranking 2 := by
  have h := C2_rank_is_permutation (K := ℚ) ratSqrt ratPow
    [[(1:ℚ),2],[3,4]] [1/2, 1/2] [Direction.max, Direction.min] (1/2) (1/2) (1/50)
    [[({l := 1, m := 2, u := 3} : TriangularFuzzyNumber ℚ)], [{l := 2, m := 3, u := 4}]]
    [FuzzyOrCrisp.crisp 1] (by decide) (by decide)
  exact ⟨h.1, h.2.2.2.2.2.2.2.2.2.2⟩

/-! ## C3: the unguarded COPRAS utility division -/

/-- C3.  On the all-zero non-negative matrix `[[0]]` with weight `[1]` and
direction maximize, COPRAS's relative-significance list is `[0]`, so the
final utility division `scores = Q.map(q => q / qMax * 100)` divides by
`qMax = Math.max(...Q) = 0` with no guard: in JS the produced score is
`0/0 * 100 = NaN`, contradicting the claim that every division is guarded
and no NaN is produced.  (The Lean field convention `0/0 = 0` makes the
embedded score list `[0]`.) -/
theorem C3_copras_qmax_zero_division :
    COPRAS_Q [[(0:ℚ)]] [1] [Direction.max] = [0] ∧
    COPRAS_qMax [[(0:ℚ)]] [1] [Direction.max] = 0 ∧
    (COPRAS [[(0:ℚ)]] [1] [Direction.max]).scores =
      [0 / COPRAS_qMax [[(0:ℚ)]] [1] [Direction.max] * 100] := by
  refine ⟨?_, ?_, ?_⟩
  · simp [COPRAS_Q, Normalization.sum, numCrit, col, dirAt, jsOr, List.range_succ]
  · simp [COPRAS_qMax, COPRAS_Q, Normalization.sum, numCrit, col, dirAt, jsOr,
      jsMax, List.range_succ]
  · simp [COPRAS, COPRAS_qMax, COPRAS_Q, Normalization.sum, numCrit, col, dirAt,
      jsOr, jsMax, List.range_succ]

/-! ## C7: fuzzification round trip -/

/-- C7 counterexample: for the negative crisp value `-3`, zero-spread
fuzzification clamps the lower bound to `0` (`Math.max(0, crisp - delta)`),
so the centroid is `-2`, not `-3`: the claimed round-trip identity fails. -/
theorem C7_centroid_roundtrip_counterexample :
    Defuzzification.centroid (Fuzzification.triangularSpread (-3 : ℚ) 0) = -2 ∧
    Defuzzification.centroid (Fuzzification.triangularSpread (-3 : ℚ) 0) ≠ -3 := by
  constructor <;>
    norm_num [Defuzzification.centroid, Fuzzification.triangularSpread]

/-- C7 amended: for every NON-NEGATIVE crisp value `c`, defuzzifying the
zero-spread fuzzification by centroid returns `c` exactly. -/
theorem C7_centroid_roundtrip_nonneg {K : Type} [LinearOrderedField K]
    (c : K) (hc : 0 ≤ c) :
    Defuzzification.centroid (Fuzzification.triangularSpread c 0) = c := by
  simp only [Defuzzification.centroid, Fuzzification.triangularSpread,
    mul_zero, sub_zero, add_zero, max_eq_right hc]
  ring

/-- C7 witness: the amended round trip at `c = 5`. -/
theorem C7_centroid_roundtrip_nonneg_witness :
    Defuzzification.centroid (Fuzzification.triangularSpread (5 : ℚ) 0) = 5 :=
  C7_centroid_roundtrip_nonneg (5 : ℚ) (by norm_num)

/-! ## C9: fuzzy subtraction preserves well-formedness -/

/-- C9.  For well-formed triangular operands the bound-swapping fuzzy
subtraction `(a.l - b.u, a.m - b.m, a.u - b.l)` is well-formed again. -/
theorem C9_fuzzy_subtract_wellformed {K : Type} [LinearOrderedField K]
    (a b : TriangularFuzzyNumber K) (ha : a.WellFormed) (hb : b.WellFormed) :
    (FuzzyArithmetic.subtract a b).WellFormed := by
  obtain ⟨ha1, ha2⟩ := ha
  obtain ⟨hb1, hb2⟩ := hb
  constructor
  · show a.l - b.u ≤ a.m - b.m
    linarith
  · show a.m - b.m ≤ a.u - b.l
    linarith

/-- C9 witness: at the concrete well-formed operands `(1,2,3)` and `(0,1,5)`. -/
theorem C9_fuzzy_subtract_wellformed_witness :
    (FuzzyArithmetic.subtract ({l := 1, m := 2, u := 3} : TriangularFuzzyNumber ℚ)
      {l := 0, m := 1, u := 5}).WellFormed :=
  C9_fuzzy_subtract_wellformed _ _ (by constructor <;> norm_num)
    (by constructor <;> norm_num)

/-! ## C10: closeness coefficients live in [0, 1) -/

theorem getD_nonneg {l : List K} (h : ∀ x ∈ l, 0 ≤ x) (i : ℕ) :
    0 ≤ l.getD i 0 := by
  by_cases hi : i < l.length
  · rw [List.getD_eq_getElem l 0 hi]
    exact h _ (List.getElem_mem hi)
  · rw [List.getD_eq_default l 0 (Nat.le_of_not_lt hi)]

theorem foldl_add_nonneg {ι : Type} (f : ι → K) (l : List ι) (init : K)
    (h0 : 0 ≤ init) (hf : ∀ j ∈ l, 0 ≤ f j) :
    0 ≤ l.foldl (fun s j => s + f j) init := by
  induction l generalizing init with
  | nil => exact h0
  | cons x xs ih =>
    exact ih _ (add_nonneg h0 (hf x (List.mem_cons_self x xs)))
      (fun j hj => hf j (List.mem_cons_of_mem x hj))

theorem closeness_nonneg_lt_one {dp dm : K} (hdp : 0 ≤ dp) (hdm : 0 ≤ dm) :
    0 ≤ dm / (dp + dm + 1/10000) ∧ dm / (dp + dm + 1/10000) < 1 := by
  have hpos : 0 < dp + dm + 1/10000 :=
    add_pos_of_nonneg_of_pos (add_nonneg hdp hdm) (by norm_num)
  constructor
  · exact div_nonneg hdm (le_of_lt hpos)
  · rw [div_lt_one hpos]
    linarith

theorem ratSqrt_nonneg (q : ℚ) : 0 ≤ ratSqrt q := by
  unfold ratSqrt
  split
  · exact div_nonneg (Nat.cast_nonneg _) (Nat.cast_nonneg _)
  · exact le_refl 0

/-- C10 (code bug in the fuzzy half).  Crisp TOPSIS closeness coefficients
always lie in `[0, 1)`, and fuzzy TOPSIS coefficients do so whenever every
cost (minimize) column has at least one strictly positive lower bound — the
domain on which a field-valued model of the code is value-faithful.  On the
full domain the claim FAILS: the cost branch computes
`Math.min(...colValues.map(v => v.l).filter(v => v > 0))` with no guard, and
for the in-domain one-cell matrix whose cell is the default "Very Low"
linguistic value `(0, 0.1, 0.3)` under a minimize direction the filtered
spread is empty (third conjunct), so JS's `Math.min()` returns `+Infinity`;
`linearCost` divides that minimum by the cell's nonzero upper and middle
bounds (fourth conjunct), the infinite components reach the distance sums as
`∞ - ∞ = NaN`, and the returned score is `NaN`, outside `[0, 1)`. -/
theorem C10_unit_interval_fuzzy_cost_min_unguarded {K : Type}
    [LinearOrderedField K] (sqrt : K → K) (hs : ∀ x, 0 ≤ sqrt x)
    (matrix : List (List K)) (weights : List K) (directions : List Direction)
    (fmatrix : List (List (TriangularFuzzyNumber K)))
    (fweights : List (FuzzyOrCrisp K)) (fdirections : List Direction)
    (hguard : ∀ j, j < (fmatrix.headD []).length →
      dirAt fdirections j ≠ Direction.max → fuzzyCostSpread fmatrix j ≠ []) :
    (∀ s ∈ (TOPSIS sqrt matrix weights directions).scores, 0 ≤ s ∧ s < 1) ∧
    (∀ s ∈ (fuzzyTOPSIS sqrt fmatrix fweights fdirections).scores,
      0 ≤ s ∧ s < 1) ∧
    fuzzyCostSpread ([[⟨0, 1/10, 3/10⟩]] : List (List (TriangularFuzzyNumber K))) 0
      = [] ∧
    (∀ minL : K,
      FuzzyNormalization.linearCost (⟨0, 1/10, 3/10⟩ : TriangularFuzzyNumber K)
        minL = ⟨minL / (3/10), minL / (1/10), 0⟩) := by
  refine ⟨?_, ?_, ?_, ?_⟩
  · intro s hmem
    simp only [TOPSIS, List.mem_map] at hmem
    obtain ⟨i, _, rfl⟩ := hmem
    refine closeness_nonneg_lt_one (getD_nonneg ?_ i) (getD_nonneg ?_ i)
    · intro x hx
      simp only [List.mem_map] at hx
      obtain ⟨j, _, rfl⟩ := hx
      exact hs _
    · intro x hx
      simp only [List.mem_map] at hx
      obtain ⟨j, _, rfl⟩ := hx
      exact hs _
  · intro s hmem
    unfold fuzzyTOPSIS at hmem
    by_cases hdeg : fmatrix.length = 0 ∨ (List.headD fmatrix []).length = 0
    · rw [if_pos hdeg] at hmem
      cases hmem
    · rw [if_neg hdeg] at hmem
      simp only [List.mem_map] at hmem
      obtain ⟨i, _, rfl⟩ := hmem
      have hdist : ∀ (a b : TriangularFuzzyNumber K),
          0 ≤ FuzzyArithmetic.distance sqrt a b := by
        intro a b
        exact div_nonneg (hs _) (hs 3)
      refine closeness_nonneg_lt_one (getD_nonneg ?_ i) (getD_nonneg ?_ i)
      · intro x hx
        simp only [List.mem_map] at hx
        obtain ⟨j, _, rfl⟩ := hx
        exact foldl_add_nonneg _ _ _ (le_refl 0) (fun k _ => hdist _ _)
      · intro x hx
        simp only [List.mem_map] at hx
        obtain ⟨j, _, rfl⟩ := hx
        exact foldl_add_nonneg _ _ _ (le_refl 0) (fun k _ => hdist _ _)
  · norm_num [fuzzyCostSpread]
  · intro minL
    norm_num [FuzzyNormalization.linearCost]

/-- C10 witness: the crisp bound at a concrete input, the fuzzy bound at a
concrete benefit-direction input (where the cost-spread guard is vacuous),
and the empty `Math.min` argument list of the "Very Low" minimize cell, over
`ℚ` with the rational square-root model. -/
theorem C10_unit_interval_fuzzy_cost_min_unguarded_witness :
    (∀ s ∈ (TOPSIS ratSqrt [[(1:ℚ)],[2],[3]] [1] [Direction.min]).scores,
      0 ≤ s ∧ s < 1) ∧
    (∀ s ∈ (fuzzyTOPSIS ratSqrt
      [[({l := 1, m := 2, u := 3} : TriangularFuzzyNumber ℚ)], [{l := 2, m := 3, u := 4}]]
      [FuzzyOrCrisp.crisp 1] [Direction.max]).scores, 0 ≤ s ∧ s < 1) ∧
    fuzzyCostSpread ([[⟨0, 1/10, 3/10⟩]] : List (List (TriangularFuzzyNumber ℚ))) 0
      = [] ∧
    (∀ minL : ℚ,
      FuzzyNormalization.linearCost (⟨0, 1/10, 3/10⟩ : TriangularFuzzyNumber ℚ)
        minL = ⟨minL / (3/10), minL / (1/10), 0⟩) :=
  C10_unit_interval_fuzzy_cost_min_unguarded ratSqrt ratSqrt_nonneg
    [[(1:ℚ)],[2],[3]] [1] [Direction.min]
    [[({l := 1, m := 2, u := 3} : TriangularFuzzyNumber ℚ)], [{l := 2, m := 3, u := 4}]]
    [FuzzyOrCrisp.crisp 1] [Direction.max]
    (by
      intro j hj hd
      have hj0 : j = 0 := by
        simp only [List.headD_cons, List.length_cons, List.length_nil] at hj
        omega
      subst hj0
      exact absurd rfl hd)

/-! ## C4: normalization range of linearMax and minMax -/

/-- C4.  On a rectangular matrix of non-negative cells, every output cell of
`linearMax` and of `minMax` normalization lies in `[0, 1]`. -/
theorem C4_normalization_range {K : Type} [LinearOrderedField K]
    (matrix : List (List K)) (directions : List Direction)
    (hrect : ∀ row ∈ matrix, row.length = numCrit matrix)
    (hnn : ∀ row ∈ matrix, ∀ x ∈ row, 0 ≤ x) :
    (∀ row ∈ Normalization.linearMax matrix directions, ∀ x ∈ row,
      0 ≤ x ∧ x ≤ 1) ∧
    (∀ row ∈ Normalization.minMax matrix directions, ∀ x ∈ row,
      0 ≤ x ∧ x ≤ 1) := by
  constructor
  · intro nrow hnrow x hx
    simp only [Normalization.linearMax, List.mem_map] at hnrow
    obtain ⟨row, hrow, rfl⟩ := hnrow
    rcases List.mem_append.mp hx with hx1 | hx1
    swap
    · rw [List.drop_eq_nil_of_le (le_of_eq (hrect row hrow))] at hx1
      cases hx1
    obtain ⟨j, hj, rfl⟩ := List.mem_map.mp hx1
    have hcell : (0:K) ≤ row.getD j 0 := getD_nonneg (hnn row hrow) j
    have hmemcol : row.getD j 0 ∈ col matrix j :=
      List.mem_map_of_mem (fun r => r.getD j 0) hrow
    by_cases hdir : dirAt directions j = Direction.max
    · rw [if_pos hdir]
      have hle : row.getD j 0 ≤ jsMax (col matrix j) := le_jsMax hmemcol
      by_cases h0 : jsMax (col matrix j) = 0
      · rw [jsOr, if_pos h0]
        have : row.getD j 0 = 0 := le_antisymm (h0 ▸ hle) hcell
        rw [this]
        norm_num
      · rw [jsOr, if_neg h0]
        have hpos : 0 < jsMax (col matrix j) :=
          lt_of_le_of_ne (le_trans hcell hle) (Ne.symm h0)
        exact ⟨div_nonneg hcell hpos.le, (div_le_one hpos).mpr hle⟩
    · rw [if_neg hdir]
      by_cases hz : row.getD j 0 ≠ 0
      · rw [if_pos hz]
        have hcpos : 0 < row.getD j 0 := lt_of_le_of_ne hcell (Ne.symm hz)
        have hmemf : row.getD j 0 ∈ (col matrix j).filter (fun v => decide (0 < v)) :=
          List.mem_filter.mpr ⟨hmemcol, decide_eq_true hcpos⟩
        have hminle : jsMin ((col matrix j).filter (fun v => decide (0 < v))) ≤
            row.getD j 0 := jsMin_le hmemf
        have hminpos : 0 < jsMin ((col matrix j).filter (fun v => decide (0 < v))) := by
          have hne : (col matrix j).filter (fun v => decide (0 < v)) ≠ [] :=
            List.ne_nil_of_mem hmemf
          have hmem := jsMin_mem hne
          exact of_decide_eq_true (List.mem_filter.mp hmem).2
        rw [jsOr, if_neg hminpos.ne']
        exact ⟨div_nonneg hminpos.le hcpos.le, (div_le_one hcpos).mpr hminle⟩
      · rw [if_neg hz]
        norm_num
  · intro nrow hnrow x hx
    simp only [Normalization.minMax, List.mem_map] at hnrow
    obtain ⟨row, hrow, rfl⟩ := hnrow
    rcases List.mem_append.mp hx with hx1 | hx1
    swap
    · rw [List.drop_eq_nil_of_le (le_of_eq (hrect row hrow))] at hx1
      cases hx1
    obtain ⟨j, hj, rfl⟩ := List.mem_map.mp hx1
    have hmemcol : row.getD j 0 ∈ col matrix j :=
      List.mem_map_of_mem (fun r => r.getD j 0) hrow
    have hmaxge : row.getD j 0 ≤ jsMax (col matrix j) := le_jsMax hmemcol
    have hminle : jsMin (col matrix j) ≤ row.getD j 0 := jsMin_le hmemcol
    set cv := row.getD j 0 with hcv
    set mx := jsMax (col matrix j) with hmx
    set mn := jsMin (col matrix j) with hmn
    by_cases h0 : mx - mn = 0
    · rw [jsOr, if_pos h0]
      by_cases hdir : dirAt directions j = Direction.max
      · rw [if_pos hdir]
        constructor <;> [linarith; linarith]
      · rw [if_neg hdir]
        constructor <;> [linarith; linarith]
    · have hpos : 0 < mx - mn := lt_of_le_of_ne (by linarith) (Ne.symm h0)
      rw [jsOr, if_neg h0]
      by_cases hdir : dirAt directions j = Direction.max
      · rw [if_pos hdir]
        exact ⟨div_nonneg (by linarith) hpos.le, (div_le_one hpos).mpr (by linarith)⟩
      · rw [if_neg hdir]
        exact ⟨div_nonneg (by linarith) hpos.le, (div_le_one hpos).mpr (by linarith)⟩

/-- C4 witness: the bounds at a concrete non-negative 2×2 matrix. -/
theorem C4_normalization_range_witness :
    (∀ row ∈ Normalization.linearMax [[(1:ℚ),4],[3,2]]
        [Direction.max, Direction.min], ∀ x ∈ row, 0 ≤ x ∧ x ≤ 1) ∧
    (∀ row ∈ Normalization.minMax [[(1:ℚ),4],[3,2]]
        [Direction.max, Direction.min], ∀ x ∈ row, 0 ≤ x ∧ x ≤ 1) :=
  C4_normalization_range [[(1:ℚ),4],[3,2]] [Direction.max, Direction.min]
    (by
      intro row hrow
      rcases List.mem_cons.mp hrow with h | h
      · subst h
        rfl
      · rcases List.mem_singleton.mp h with rfl
        rfl)
    (by
      intro row hrow
      rcases List.mem_cons.mp hrow with h | h
      · subst h
        intro x hx
        rcases List.mem_cons.mp hx with h' | h'
        · subst h'
          norm_num
        · rcases List.mem_singleton.mp h' with rfl
          norm_num
      · rcases List.mem_singleton.mp h with rfl
        intro x hx
        rcases List.mem_cons.mp hx with h' | h'
        · subst h'
          norm_num
        · rcases List.mem_singleton.mp h' with rfl
          norm_num)

/-! ## C6: dispatcher fallback and the WSM alias -/

/-- C6.  A method name whose normalization misses every entry of the method
table dispatches to exactly `TOPSIS`, and the alias `"WSM"` dispatches to
exactly `SAW`. -/
theorem C6_dispatcher_fallback {K : Type} [LinearOrderedField K]
    (sqrt : K → K) (rpow : K → K → K) (s : String)
    (h : normalizeMethodName s ∉ methodTable)
    (matrix : List (List K)) (weights : List K) (directions : List Direction)
    (options : MCDMCallOpts K) :
    calculateMCDM sqrt rpow s matrix weights directions options =
      TOPSIS sqrt matrix weights directions ∧
    calculateMCDM sqrt rpow "WSM" matrix weights directions options =
      SAW matrix weights directions := by
  constructor
  · simp only [methodTable, List.mem_cons, List.not_mem_nil, or_false, not_or] at h
    obtain ⟨h1, h2, h3, h4, h5, h6, h7, h8, h9, h10, h11, h12, h13, h14⟩ := h
    simp only [calculateMCDM]
    rw [if_neg (by simp [h1, h2, h3]), if_neg (by simp [h4, h5]), if_neg h6,
      if_neg h7, if_neg (by simp [h8, h9]), if_neg h10, if_neg h11, if_neg h12,
      if_neg h13, if_neg h14]
  · have hn : normalizeMethodName "WSM" = "SAW" := by decide
    simp [calculateMCDM, hn]

/-- C6 witness: the unrecognized name `"NOSUCHMETHOD"` falls back to TOPSIS
and `"WSM"` dispatches to SAW on a concrete input. -/
theorem C6_dispatcher_fallback_witness :
    calculateMCDM ratSqrt ratPow "NOSUCHMETHOD" [[(1:ℚ),2],[3,4]] [1/2,1/2]
        [Direction.max, Direction.min] ⟨0, 0, 0⟩ =
      TOPSIS ratSqrt [[(1:ℚ),2],[3,4]] [1/2,1/2] [Direction.max, Direction.min] ∧
    calculateMCDM ratSqrt ratPow "WSM" [[(1:ℚ),2],[3,4]] [1/2,1/2]
        [Direction.max, Direction.min] ⟨0, 0, 0⟩ =
      SAW [[(1:ℚ),2],[3,4]] [1/2,1/2] [Direction.max, Direction.min] :=
  C6_dispatcher_fallback ratSqrt ratPow "NOSUCHMETHOD" (by decide)
    [[(1:ℚ),2],[3,4]] [1/2,1/2] [Direction.max, Direction.min] ⟨0, 0, 0⟩

/-! ## C8: aggregating two identical expert matrices -/

theorem ratSqrt_sq (x : ℚ) (hx : 0 ≤ x) : ratSqrt (x ^ 2) = x := by
  have hnn : (x ^ 2).num.natAbs = x.num.natAbs ^ 2 := by
    rw [Rat.num_pow]
    exact Int.natAbs_pow x.num 2
  have hdd : (x ^ 2).den = x.den ^ 2 := Rat.den_pow x 2
  have hsq1 : Nat.sqrt (x.num.natAbs ^ 2) = x.num.natAbs := by
    rw [pow_two]
    exact Nat.sqrt_eq _
  have hsq2 : Nat.sqrt (x.den ^ 2) = x.den := by
    rw [pow_two]
    exact Nat.sqrt_eq _
  unfold ratSqrt
  rw [if_pos ⟨sq_nonneg x, by rw [hnn, hsq1], by rw [hdd, hsq2]⟩]
  rw [hnn, hsq1, hdd, hsq2]
  have hnum0 : (0:ℤ) ≤ x.num := Rat.num_nonneg.mpr hx
  rw [show ((x.num.natAbs : ℚ)) = ((x.num : ℚ)) from by
    rw [Int.cast_natAbs, abs_of_nonneg hnum0]]
  exact Rat.num_div_den x

theorem ratPow_half (x : ℚ) (hx : 0 < x) : ratPow (x * x) (1/2) = x := by
  unfold ratPow
  rw [if_neg (by norm_num), if_pos rfl, ← pow_two]
  exact ratSqrt_sq x hx.le

/-- C8 counterexample: aggregating the two identical one-cell matrices
whose cell is the zero triangular number by geometric mean returns the cell
`(0.001, 0.001, 0.001)`, NOT the original matrix: the `|| 0.001` epsilon
guard inside the geometric-mean product replaces each zero component. -/
theorem C8_aggregate_identical_counterexample :
    aggregateExpertEvaluations ratPow
      [[[({l := 0, m := 0, u := 0} : TriangularFuzzyNumber ℚ)]],
       [[{l := 0, m := 0, u := 0}]]] AggMethod.geometric =
      [[{l := 1/1000, m := 1/1000, u := 1/1000}]] ∧
    aggregateExpertEvaluations ratPow
      [[[({l := 0, m := 0, u := 0} : TriangularFuzzyNumber ℚ)]],
       [[{l := 0, m := 0, u := 0}]]] AggMethod.geometric ≠
      [[{l := 0, m := 0, u := 0}]] := by
  have h1 : ratSqrt ((1/1000000 : ℚ)) = 1/1000 := by
    have h := ratSqrt_sq (1/1000 : ℚ) (by norm_num)
    rw [show ((1/1000 : ℚ)^2) = 1/1000000 by norm_num] at h
    exact h
  constructor
  · norm_num [aggregateExpertEvaluations, FuzzyAggregation.geometricMean, jsOr,
      ratPow, List.range_succ, h1]
  · norm_num [aggregateExpertEvaluations, FuzzyAggregation.geometricMean, jsOr,
      ratPow, List.range_succ, h1]

/-- C8 amended: for a rectangular fuzzy matrix all of whose cell components
are POSITIVE (so the `|| 0.001` guard never fires and the square root of
the squared component is the component itself), aggregating the two-element
expert list `[M, M]` by geometric mean returns `M` unchanged. -/
theorem C8_aggregate_identical_positive {K : Type} [LinearOrderedField K]
    (rpow : K → K → K)
    (hr : ∀ x : K, 0 < x → rpow (x * x) ((1:K)/2) = x)
    (M : List (List (TriangularFuzzyNumber K)))
    (hrect : ∀ row ∈ M, row.length = (M.headD []).length)
    (hpos : ∀ row ∈ M, ∀ t ∈ row, 0 < t.l ∧ 0 < t.m ∧ 0 < t.u) :
    aggregateExpertEvaluations rpow [M, M] AggMethod.geometric = M := by
  unfold aggregateExpertEvaluations
  rw [if_neg (by simp)]
  simp only [List.getD_cons_zero]
  refine List.ext_get (by simp) ?_
  intro n h1 h2
  simp only [List.get_eq_getElem, List.getElem_map, List.getElem_range]
  have hrow : M[n].length = (M.headD []).length := hrect M[n] (List.getElem_mem h2)
  refine List.ext_get (by simp [hrow]) ?_
  intro j hj1 hj2
  simp only [List.get_eq_getElem, List.getElem_map, List.getElem_range,
    List.map_cons, List.map_nil]
  have hjlen : j < M[n].length := hj2
  rw [List.getD_eq_getElem M [] h2, List.getD_eq_getElem _ _ hjlen]
  obtain ⟨hl, hm, hu⟩ := hpos M[n] (List.getElem_mem h2) M[n][j] (List.getElem_mem hjlen)
  unfold FuzzyAggregation.geometricMean
  rw [if_neg (by simp)]
  simp only [List.foldl_cons, List.foldl_nil, List.length_cons, List.length_nil, jsOr]
  rw [if_neg hl.ne', if_neg hm.ne', if_neg hu.ne']
  rw [one_mul, one_mul, one_mul]
  have hcast : ((0 + 1 + 1 : ℕ) : K) = 2 := by norm_num
  rw [hcast]
  rw [hr _ hl, hr _ hm, hr _ hu]

/-- C8 witness: the amended identity at a concrete positive fuzzy matrix,
with the rational power model discharging the root hypothesis. -/
theorem C8_aggregate_identical_positive_witness :
    aggregateExpertEvaluations ratPow
      [[[({l := 1/2, m := 2, u := 3} : TriangularFuzzyNumber ℚ), {l := 1, m := 1, u := 4}]],
       [[{l := 1/2, m := 2, u := 3}, {l := 1, m := 1, u := 4}]]]
      AggMethod.geometric =
      [[({l := 1/2, m := 2, u := 3} : TriangularFuzzyNumber ℚ), {l := 1, m := 1, u := 4}]] :=
  C8_aggregate_identical_positive ratPow (fun x hx => ratPow_half x hx)
    [[({l := 1/2, m := 2, u := 3} : TriangularFuzzyNumber ℚ), {l := 1, m := 1, u := 4}]]
    (by
      intro row hrow
      simp only [List.mem_singleton] at hrow
      subst hrow
      rfl)
    (by
      intro row hrow
      simp only [List.mem_singleton] at hrow
      subst hrow
      intro t ht
      rcases List.mem_cons.mp ht with h | h
      · subst h
        refine ⟨by norm_num, by norm_num, by norm_num⟩
      · rcases List.mem_singleton.mp h with rfl
        refine ⟨by norm_num, by norm_num, by norm_num⟩)

/-! ## C1: the single-column minimize scenario -/

/-- `Direction.min` and `Direction.max` are distinct constructors. -/
theorem dir_min_ne_max : Direction.min ≠ Direction.max := by decide


/-- Evaluation of `rankFrom` on a strictly descending three-element score
list. -/
theorem rankFrom_three_desc {a b c : K} (h1 : b < a) (h2 : c < b) :
    rankFrom [a, b, c] = [1, 2, 3] := by
  have h3 : c < a := lt_trans h2 h1
  simp [rankFrom, rankP, List.range_succ, List.countP_cons,
    h1, h2, h3, not_lt.mpr h1.le, not_lt.mpr h2.le, not_lt.mpr h3.le,
    h1.ne, h2.ne, h3.ne, h1.ne', h2.ne', h3.ne']


/-- Evaluation of `rankFrom` on a strictly ascending three-element score
list. -/
theorem rankFrom_three_asc {a b c : K} (h1 : a < b) (h2 : b < c) :
    rankFrom [a, b, c] = [3, 2, 1] := by
  have h3 : a < c := lt_trans h1 h2
  simp [rankFrom, rankP, List.range_succ, List.countP_cons,
    h1, h2, h3, not_lt.mpr h1.le, not_lt.mpr h2.le, not_lt.mpr h3.le,
    h1.ne, h2.ne, h3.ne, h1.ne', h2.ne', h3.ne']


/-- C1.  On the single-column matrix `[[1],[2],[3]]` with weight `[1]` and
direction minimize, eight of the ten methods rank alternative 1 (the
smallest, hence best, value) first — but VIKOR and ARAS rank it LAST
(rank 3, ranking `[3,2,1]`), because both treat minimize criteria with the
wrong sign: VIKOR's deviation `w*|fStar - x| / (fStar - fMinus)` has a
negative denominator when `fStar < fMinus`, and ARAS sum-normalizes minimize
columns without inverting them, so its "optimal" prepended alternative gets
the SMALLEST weighted sum.  This contradicts the spec's scenario 3 and the
code's own intent ("Lower Q is better", "Create optimal alternative"). -/
theorem C1_single_column_minimize_eval (sqrt : ℚ → ℚ) (rpow : ℚ → ℚ → ℚ)
    (h14 : 0 ≤ sqrt 14)
    (hsq : ∀ x : ℚ, 0 ≤ x → sqrt (x ^ 2) = x)
    (hpow : ∀ x : ℚ, 0 < x → rpow x (-1) = x⁻¹) :
    (SAW [[(1:ℚ)],[2],[3]] [1] [Direction.min]).ranking = [1, 2, 3] ∧
    (WPM rpow [[(1:ℚ)],[2],[3]] [1] [Direction.min]).ranking = [1, 2, 3] ∧
    (TOPSIS sqrt [[(1:ℚ)],[2],[3]] [1] [Direction.min]).ranking = [1, 2, 3] ∧
    (MOORA sqrt [[(1:ℚ)],[2],[3]] [1] [Direction.min]).ranking = [1, 2, 3] ∧
    (WASPAS rpow [[(1:ℚ)],[2],[3]] [1] [Direction.min] (1/2)).ranking = [1, 2, 3] ∧
    (COPRAS [[(1:ℚ)],[2],[3]] [1] [Direction.min]).ranking = [1, 2, 3] ∧
    (EDAS [[(1:ℚ)],[2],[3]] [1] [Direction.min]).ranking = [1, 2, 3] ∧
    (CODAS sqrt [[(1:ℚ)],[2],[3]] [1] [Direction.min] (1/50)).ranking = [1, 2, 3] ∧
    (VIKOR [[(1:ℚ)],[2],[3]] [1] [Direction.min] (1/2)).ranking = [3, 2, 1] ∧
    (ARAS [[(1:ℚ)],[2],[3]] [1] [Direction.min]).ranking = [3, 2, 1] := by
  obtain ⟨d, hdef, hdpos⟩ : ∃ d, jsOr (sqrt 14) 1 = d ∧ 0 < d :=
    ⟨_, rfl, jsOr_pos h14 one_pos⟩
  have h12 : (d:ℚ)⁻¹ < 2 / d := by
    rw [inv_eq_one_div, div_lt_div_iff_of_pos_right hdpos]
    norm_num
  have h23 : (2:ℚ)/d < 3/d := by
    rw [div_lt_div_iff_of_pos_right hdpos]
    norm_num
  have h13 : (d:ℚ)⁻¹ < 3/d := lt_trans h12 h23
  have hmin : (d:ℚ)⁻¹ ⊓ (2/d) ⊓ (3/d) = d⁻¹ := by
    rw [min_eq_left h12.le, min_eq_left h13.le]
  have hmax : (d:ℚ)⁻¹ ⊔ (2/d) ⊔ (3/d) = 3/d := by
    rw [max_eq_right h12.le, max_eq_right h23.le]
  have hsq0 : sqrt 0 = 0 := by
    have h := hsq 0 (le_refl 0)
    norm_num at h
    exact h
  have hr3 : List.range 3 = [0, 1, 2] := rfl
  refine ⟨?_, ?_, ?_, ?_, ?_, ?_, ?_, ?_, ?_, ?_⟩
  · -- SAW
    norm_num [SAW, Normalization.linearMax, numCrit, col, dirAt, jsOr, jsMax, jsMin,
      List.range_succ, List.enum, List.enumFrom, dir_min_ne_max,
      rankFrom, rankP, List.countP_cons, hr3]
  · -- WPM
    norm_num [WPM, numCrit, col, dirAt, jsOr, List.enum, List.enumFrom,
      dir_min_ne_max, hpow 1 (by norm_num), hpow 2 (by norm_num),
      hpow 3 (by norm_num), rankFrom, rankP, List.countP_cons, hr3]
  · -- TOPSIS
    have e1 : ((d:ℚ)⁻¹ - 3/d)^2 = (2/d)^2 := by
      field_simp
      ring
    have e2 : ((2:ℚ)/d - d⁻¹)^2 = (d⁻¹)^2 := by
      field_simp
      norm_num
    have e3 : ((2:ℚ)/d - 3/d)^2 = (d⁻¹)^2 := by
      field_simp
      norm_num
    have hsqA : sqrt ((2/d)^2) = 2/d := hsq _ (by positivity)
    have hsqB : sqrt (((d:ℚ)⁻¹)^2) = d⁻¹ := hsq _ (by positivity)
    have hsqB' : sqrt (((d:ℚ)^2)⁻¹) = d⁻¹ := by
      rw [← inv_pow]
      exact hsqB
    have hrfl : (TOPSIS sqrt [[(1:ℚ)],[2],[3]] [1] [Direction.min]).ranking =
        rankFrom (TOPSIS sqrt [[(1:ℚ)],[2],[3]] [1] [Direction.min]).scores := rfl
    have hscores : (TOPSIS sqrt [[(1:ℚ)],[2],[3]] [1] [Direction.min]).scores =
        [(2/d) / (2/d + 1/10000), d⁻¹ / (d⁻¹ + d⁻¹ + 1/10000), 0] := by
      norm_num [TOPSIS, Normalization.vector, numCrit, col, dirAt, List.range_succ,
        List.enum, List.enumFrom, dir_min_ne_max, hdef, jsMax, jsMin, hmin, hmax,
        hsq0, e1, e2, e3, hsqA, hsqB, hsqB']
    rw [hrfl, hscores]
    have hbinv : (0:ℚ) < d⁻¹ := inv_pos.mpr hdpos
    have hdd : (d:ℚ)⁻¹ + d⁻¹ = 2/d := by
      rw [inv_eq_one_div, div_add_div_same]
      norm_num
    apply rankFrom_three_desc
    · rw [hdd]
      exact (div_lt_div_iff_of_pos_right (by positivity)).mpr h12
    · exact div_pos hbinv (by linarith)
  · -- MOORA
    have hrfl : (MOORA sqrt [[(1:ℚ)],[2],[3]] [1] [Direction.min]).ranking =
        rankFrom (MOORA sqrt [[(1:ℚ)],[2],[3]] [1] [Direction.min]).scores := rfl
    have hscores : (MOORA sqrt [[(1:ℚ)],[2],[3]] [1] [Direction.min]).scores =
        [-d⁻¹, -(2/d), -(3/d)] := by
      norm_num [MOORA, Normalization.vector, numCrit, col, dirAt, List.range_succ,
        dir_min_ne_max, hdef]
    rw [hrfl, hscores]
    exact rankFrom_three_desc (neg_lt_neg h12) (neg_lt_neg h23)
  · -- WASPAS
    norm_num [WASPAS, SAW, WPM, Normalization.linearMax, numCrit, col, dirAt, jsOr,
      jsMax, jsMin, List.range_succ, List.enum, List.enumFrom, dir_min_ne_max,
      hpow 1 (by norm_num), hpow 2 (by norm_num), hpow 3 (by norm_num),
      rankFrom, rankP, List.countP_cons, hr3]
  · -- COPRAS
    norm_num [COPRAS, COPRAS_qMax, COPRAS_Q, Normalization.sum, numCrit, col, dirAt,
      jsOr, jsMax, List.range_succ, dir_min_ne_max, rankFrom, rankP, List.countP_cons, hr3]
  · -- EDAS
    norm_num [EDAS, numCrit, col, dirAt, jsOr, jsMax, List.range_succ, List.enum,
      List.enumFrom, dir_min_ne_max, rankFrom, rankP, List.countP_cons, hr3]
  · -- CODAS
    have hc1 : sqrt (4/9 : ℚ) = 2/3 := by
      rw [show (4/9 : ℚ) = (2/3)^2 by norm_num]
      exact hsq _ (by norm_num)
    have hc2 : sqrt (1/36 : ℚ) = 1/6 := by
      rw [show (1/36 : ℚ) = (1/6)^2 by norm_num]
      exact hsq _ (by norm_num)
    have habs1 : |(2/3 : ℚ)| = 2/3 := by norm_num
    have habs2 : |(1/6 : ℚ)| = 1/6 := by norm_num
    have habs3 : |(1/2 : ℚ)| = 1/2 := by norm_num
    norm_num [CODAS, Normalization.linearMax, numCrit, col, dirAt, jsOr, jsMax,
      jsMin, List.range_succ, dir_min_ne_max, hsq0, hc1, hc2, habs1, habs2, habs3,
      rankFrom, rankP, List.countP_cons, hr3]
  · -- VIKOR
    norm_num [VIKOR, numCrit, col, dirAt, jsOr, jsMax, jsMin, List.range_succ,
      dir_min_ne_max, rankFrom, rankP, List.countP_cons, hr3]
  · -- ARAS
    norm_num [ARAS, Normalization.sum, numCrit, col, dirAt, jsOr, jsMax, jsMin,
      List.range_succ, List.enum, List.enumFrom, dir_min_ne_max,
      rankFrom, rankP, List.countP_cons, hr3]

theorem ratPow_neg_one (x : ℚ) (_hx : 0 < x) : ratPow x (-1) = x⁻¹ := by
  unfold ratPow
  rw [if_pos rfl]

/-- C1 witness: the evaluation with the rational square-root and power
models discharging the three hypotheses. -/
theorem C1_single_column_minimize_eval_witness :
    (SAW [[(1:ℚ)],[2],[3]] [1] [Direction.min]).ranking = [1, 2, 3] ∧
    (WPM ratPow [[(1:ℚ)],[2],[3]] [1] [Direction.min]).ranking = [1, 2, 3] ∧
    (TOPSIS ratSqrt [[(1:ℚ)],[2],[3]] [1] [Direction.min]).ranking = [1, 2, 3] ∧
    (MOORA ratSqrt [[(1:ℚ)],[2],[3]] [1] [Direction.min]).ranking = [1, 2, 3] ∧
    (WASPAS ratPow [[(1:ℚ)],[2],[3]] [1] [Direction.min] (1/2)).ranking = [1, 2, 3] ∧
    (COPRAS [[(1:ℚ)],[2],[3]] [1] [Direction.min]).ranking = [1, 2, 3] ∧
    (EDAS [[(1:ℚ)],[2],[3]] [1] [Direction.min]).ranking = [1, 2, 3] ∧
    (CODAS ratSqrt [[(1:ℚ)],[2],[3]] [1] [Direction.min] (1/50)).ranking = [1, 2, 3] ∧
    (VIKOR [[(1:ℚ)],[2],[3]] [1] [Direction.min] (1/2)).ranking = [3, 2, 1] ∧
    (ARAS [[(1:ℚ)],[2],[3]] [1] [Direction.min]).ranking = [3, 2, 1] :=
  C1_single_column_minimize_eval ratSqrt ratPow (ratSqrt_nonneg 14)
    ratSqrt_sq ratPow_neg_one
/-! ## Toolkit for the monotonicity analysis -/

/-- The sum of squares folded by vector normalization. -/
def sumSq (l : List K) : K := l.foldl (fun s v => s + v * v) 0

theorem foldl_addsq_shift (l : List K) (a : K) :
    l.foldl (fun s v => s + v * v) a = a + sumSq l := by
  induction l generalizing a with
  | nil => simp [sumSq]
  | cons x xs ih =>
    rw [List.foldl_cons, ih]
    rw [show sumSq (x :: xs) = (0 + x * x) + sumSq xs from by
      rw [sumSq, List.foldl_cons, ih]]
    ring

theorem sumSq_cons (x : K) (xs : List K) :
    sumSq (x :: xs) = x * x + sumSq xs := by
  rw [sumSq, List.foldl_cons, zero_add, foldl_addsq_shift]

theorem sumSq_nonneg (l : List K) : 0 ≤ sumSq l := by
  induction l with
  | nil => simp [sumSq]
  | cons x xs ih =>
    rw [sumSq_cons]
    nlinarith [mul_self_nonneg x]

theorem sumSq_eq_zero {l : List K} (h : sumSq l = 0) : ∀ v ∈ l, v = 0 := by
  induction l with
  | nil => intro v hv; cases hv
  | cons x xs ih =>
    rw [sumSq_cons] at h
    have hx2 : 0 ≤ x * x := mul_self_nonneg x
    have hxs : 0 ≤ sumSq xs := sumSq_nonneg xs
    have hx : x * x = 0 := by linarith
    have hs : sumSq xs = 0 := by linarith
    intro v hv
    rcases List.mem_cons.mp hv with h' | h'
    · subst h'
      exact mul_self_eq_zero.mp hx
    · exact ih hs v h'

theorem sq_le_sumSq {l : List K} {i : ℕ} (hi : i < l.length) :
    l.getD i 0 * l.getD i 0 ≤ sumSq l := by
  induction l generalizing i with
  | nil => cases hi
  | cons x xs ih =>
    rw [sumSq_cons]
    cases i with
    | zero =>
      simp only [List.getD_cons_zero]
      nlinarith [sumSq_nonneg xs]
    | succ n =>
      have hn : n < xs.length := Nat.lt_of_succ_lt_succ hi
      have := ih hn
      simp only [List.getD_cons_succ]
      nlinarith [mul_self_nonneg x]

theorem sumSq_set {l : List K} {i : ℕ} (hi : i < l.length) (y : K) :
    sumSq (l.set i y) = sumSq l - l.getD i 0 * l.getD i 0 + y * y := by
  induction l generalizing i with
  | nil => cases hi
  | cons x xs ih =>
    cases i with
    | zero =>
      simp only [List.set_cons_zero, List.getD_cons_zero, sumSq_cons]
      ring
    | succ n =>
      have hn : n < xs.length := Nat.lt_of_succ_lt_succ hi
      simp only [List.set_cons_succ, List.getD_cons_succ, sumSq_cons, ih hn]
      ring

theorem foldl_add_sum_mono {ι : Type} (l : List ι) (g g' : ι → K) (a a' : K)
    (ha : a ≤ a') (hg : ∀ x ∈ l, g x ≤ g' x) :
    l.foldl (fun s x => s + g x) a ≤ l.foldl (fun s x => s + g' x) a' := by
  induction l generalizing a a' with
  | nil => exact ha
  | cons x xs ih =>
    exact ih _ _ (add_le_add ha (hg x (List.mem_cons_self x xs)))
      (fun z hz => hg z (List.mem_cons_of_mem x hz))

theorem enum_map_range {α : Type} (n : ℕ) (f : ℕ → α) :
    ((List.range n).map f).enum = (List.range n).map (fun j => (j, f j)) := by
  apply List.ext_get
  · simp
  · intro k h1 h2
    simp only [List.get_eq_getElem, List.getElem_enum, List.getElem_map,
      List.getElem_range]


theorem getD_set_ne {α : Type} (l : List α) (i k : ℕ) (y d : α) (hk : k ≠ i) :
    (l.set i y).getD k d = l.getD k d := by
  by_cases hkl : k < l.length
  · rw [List.getD_eq_getElem _ _ (by simpa using hkl),
      List.getD_eq_getElem _ _ hkl]
    exact List.getElem_set_ne (Ne.symm hk) _
  · rw [List.getD_eq_default _ _ (by simpa using Nat.le_of_not_lt hkl),
      List.getD_eq_default _ _ (Nat.le_of_not_lt hkl)]

theorem getD_set_self {α : Type} (l : List α) (i : ℕ) (hi : i < l.length) (y d : α) :
    (l.set i y).getD i d = y := by
  rw [List.getD_eq_getElem _ _ (by simpa using hi)]
  exact List.getElem_set_self (by simpa using hi)

theorem vden_pos (c : List ℝ) : 0 < jsOr (Real.sqrt (sumSq c)) 1 :=
  jsOr_pos (Real.sqrt_nonneg _) one_pos

theorem vecnorm_cell_mono (c : List ℝ) (i : ℕ) (hi : i < c.length) (y : ℝ)
    (hnn : ∀ v ∈ c, 0 ≤ v) (hxy : c.getD i 0 ≤ y) :
    c.getD i 0 / jsOr (Real.sqrt (sumSq c)) 1 ≤ y / jsOr (Real.sqrt (sumSq (c.set i y))) 1 := by
  have hx0 : 0 ≤ c.getD i 0 := getD_nonneg hnn i
  have hy0 : 0 ≤ y := le_trans hx0 hxy
  by_cases hS : sumSq c = 0
  · have hxm : c.getD i 0 ∈ c := by
      rw [List.getD_eq_getElem _ _ hi]
      exact List.getElem_mem hi
    have hx : c.getD i 0 = 0 := sumSq_eq_zero hS _ hxm
    rw [hx, zero_div]
    exact div_nonneg hy0 (vden_pos _).le
  · have hSpos : 0 < sumSq c := lt_of_le_of_ne (sumSq_nonneg c) (Ne.symm hS)
    have hS' : sumSq (c.set i y) = sumSq c - c.getD i 0 * c.getD i 0 + y * y :=
      sumSq_set hi y
    have hyx : c.getD i 0 * c.getD i 0 ≤ y * y := mul_self_le_mul_self hx0 hxy
    have hS'ge : sumSq c ≤ sumSq (c.set i y) := by
      rw [hS']
      linarith
    have hS'pos : 0 < sumSq (c.set i y) := lt_of_lt_of_le hSpos hS'ge
    have hdpos : 0 < Real.sqrt (sumSq c) := Real.sqrt_pos.mpr hSpos
    have hd'pos : 0 < Real.sqrt (sumSq (c.set i y)) := Real.sqrt_pos.mpr hS'pos
    have hd : jsOr (Real.sqrt (sumSq c)) 1 = Real.sqrt (sumSq c) := by
      unfold jsOr
      rw [if_neg hdpos.ne']
    have hd' : jsOr (Real.sqrt (sumSq (c.set i y))) 1 =
        Real.sqrt (sumSq (c.set i y)) := by
      unfold jsOr
      rw [if_neg hd'pos.ne']
    rw [hd, hd', div_le_div_iff₀ hdpos hd'pos]
    have hxx : c.getD i 0 * c.getD i 0 ≤ sumSq c := sq_le_sumSq hi
    have key : (c.getD i 0 * Real.sqrt (sumSq (c.set i y))) ^ 2 ≤
        (y * Real.sqrt (sumSq c)) ^ 2 := by
      have h1 : Real.sqrt (sumSq (c.set i y)) ^ 2 = sumSq (c.set i y) :=
        Real.sq_sqrt hS'pos.le
      have h2 : Real.sqrt (sumSq c) ^ 2 = sumSq c := Real.sq_sqrt hSpos.le
      rw [mul_pow, mul_pow, h1, h2, hS']
      have e1 : 0 ≤ y * y - c.getD i 0 * c.getD i 0 := by linarith
      have e2 : 0 ≤ sumSq c - c.getD i 0 * c.getD i 0 := by linarith
      nlinarith [mul_nonneg e1 e2]
    have hB : 0 ≤ y * Real.sqrt (sumSq c) := mul_nonneg hy0 hdpos.le
    exact le_of_pow_le_pow_left₀ two_ne_zero hB key

theorem vecnorm_cell_anti (c : List ℝ) (i : ℕ) (hi : i < c.length) (y : ℝ)
    (hnn : ∀ v ∈ c, 0 ≤ v) (hxy : c.getD i 0 ≤ y) (k : ℕ) (hk : k ≠ i) :
    (c.set i y).getD k 0 / jsOr (Real.sqrt (sumSq (c.set i y))) 1 ≤ c.getD k 0 / jsOr (Real.sqrt (sumSq c)) 1 := by
  have hk0 : 0 ≤ c.getD k 0 := getD_nonneg hnn k
  rw [getD_set_ne c i k y 0 hk]
  by_cases hS : sumSq c = 0
  · have hkz : c.getD k 0 = 0 := by
      by_cases hkl : k < c.length
      · refine sumSq_eq_zero hS _ ?_
        rw [List.getD_eq_getElem _ _ hkl]
        exact List.getElem_mem hkl
      · exact List.getD_eq_default _ _ (Nat.le_of_not_lt hkl)
    rw [hkz, zero_div, zero_div]
  · have hSpos : 0 < sumSq c := lt_of_le_of_ne (sumSq_nonneg c) (Ne.symm hS)
    have hx0 : 0 ≤ c.getD i 0 := getD_nonneg hnn i
    have hyx : c.getD i 0 * c.getD i 0 ≤ y * y :=
      mul_self_le_mul_self hx0 hxy
    have hS'ge : sumSq c ≤ sumSq (c.set i y) := by
      rw [sumSq_set hi y]
      linarith
    have hdpos : 0 < Real.sqrt (sumSq c) := Real.sqrt_pos.mpr hSpos
    have hd'pos : 0 < Real.sqrt (sumSq (c.set i y)) :=
      lt_of_lt_of_le hdpos (Real.sqrt_le_sqrt hS'ge)
    have hd : jsOr (Real.sqrt (sumSq c)) 1 = Real.sqrt (sumSq c) := by
      unfold jsOr
      rw [if_neg hdpos.ne']
    have hd' : jsOr (Real.sqrt (sumSq (c.set i y))) 1 =
        Real.sqrt (sumSq (c.set i y)) := by
      unfold jsOr
      rw [if_neg hd'pos.ne']
    rw [hd, hd']
    exact div_le_div_of_nonneg_left hk0 hdpos (Real.sqrt_le_sqrt hS'ge)

theorem closeness_mono {dp dm dp' dm' : K} (hdp' : 0 ≤ dp') (hdm : 0 ≤ dm)
    (h1 : dp' ≤ dp) (h2 : dm ≤ dm') :
    dm / (dp + dm + 1/10000) ≤ dm' / (dp' + dm' + 1/10000) := by
  have hdp : 0 ≤ dp := le_trans hdp' h1
  have hdm' : 0 ≤ dm' := le_trans hdm h2
  have hden : 0 < dp + dm + 1/10000 :=
    add_pos_of_nonneg_of_pos (add_nonneg hdp hdm) (by norm_num)
  have hden' : 0 < dp' + dm' + 1/10000 :=
    add_pos_of_nonneg_of_pos (add_nonneg hdp' hdm') (by norm_num)
  rw [div_le_div_iff₀ hden hden']
  have k1 : dm * dp' ≤ dm' * dp := mul_le_mul h2 h1 hdp' hdm'
  nlinarith [k1]

theorem rankFrom_getD_mono (s s' : List K) (i : ℕ) (hlen : s'.length = s.length)
    (hi : i < s.length) (hsi : s.getD i 0 ≤ s'.getD i 0)
    (hsk : ∀ k, k ≠ i → s'.getD k 0 ≤ s.getD k 0) :
    (rankFrom s').getD i 0 ≤ (rankFrom s).getD i 0 := by
  have hi' : i < s'.length := by omega
  rw [rankFrom, rankFrom,
    List.getD_eq_getElem _ _ (by simpa using hi'),
    List.getD_eq_getElem _ _ (by simpa using hi)]
  simp only [List.getElem_map, List.getElem_range]
  have hcount : (List.range s'.length).countP (rankP s' i) ≤
      (List.range s.length).countP (rankP s i) := by
    rw [hlen]
    refine List.countP_mono_left ?_
    intro k _ hk
    rcases of_decide_eq_true hk with h | h
    · have hkne : k ≠ i := by
        intro he
        rw [he] at h
        exact lt_irrefl _ h
      have : s.getD i 0 < s.getD k 0 :=
        lt_of_le_of_lt hsi (lt_of_lt_of_le h (hsk k hkne))
      exact decide_eq_true (Or.inl this)
    · have hkne : k ≠ i := Nat.ne_of_lt h.1
      have hle : s.getD i 0 ≤ s.getD k 0 := by
        calc s.getD i 0 ≤ s'.getD i 0 := hsi
          _ = s'.getD k 0 := h.2.symm
          _ ≤ s.getD k 0 := hsk k hkne
      rcases eq_or_lt_of_le hle with he | hlt
      · exact decide_eq_true (Or.inr ⟨h.1, he.symm⟩)
      · exact decide_eq_true (Or.inl hlt)
  omega


theorem jsMax_le {l : List K} {b : K} (hne : l ≠ []) (h : ∀ v ∈ l, v ≤ b) :
    jsMax l ≤ b :=
  h _ (jsMax_mem hne)

theorem jsMax_set_ge (c : List K) (i : ℕ) (hi : i < c.length) (y : K)
    (hxy : c.getD i 0 ≤ y) : jsMax c ≤ jsMax (c.set i y) := by
  have hne : c ≠ [] := List.ne_nil_of_length_pos (Nat.lt_of_le_of_lt (Nat.zero_le i) hi)
  have hi' : i < (c.set i y).length := by simpa using hi
  have hym : y ∈ c.set i y := by
    have h2 : (c.set i y).getD i 0 = y := getD_set_self c i hi y 0
    have h3 : (c.set i y).getD i 0 ∈ c.set i y := by
      rw [List.getD_eq_getElem _ _ hi']
      exact List.getElem_mem hi'
    rwa [h2] at h3
  have hyM' : y ≤ jsMax (c.set i y) := le_jsMax hym
  obtain ⟨k0, hk0, hk0e⟩ := List.mem_iff_getElem.mp (jsMax_mem hne)
  have hcd : c.getD k0 0 = jsMax c := by
    rw [List.getD_eq_getElem _ _ hk0]
    exact hk0e
  by_cases hki : k0 = i
  · rw [hki] at hcd
    calc jsMax c = c.getD i 0 := hcd.symm
      _ ≤ y := hxy
      _ ≤ jsMax (c.set i y) := hyM'
  · have hk0' : k0 < (c.set i y).length := by simpa using hk0
    have hmem : jsMax c ∈ c.set i y := by
      have h4 : (c.set i y).getD k0 0 = jsMax c := by
        rw [getD_set_ne c i k0 y 0 hki]
        exact hcd
      have h5 : (c.set i y).getD k0 0 ∈ c.set i y := by
        rw [List.getD_eq_getElem _ _ hk0']
        exact List.getElem_mem hk0'
      rwa [h4] at h5
    exact le_jsMax hmem

theorem linmax_cell_mono (c : List K) (i : ℕ) (hi : i < c.length) (y : K)
    (hnn : ∀ v ∈ c, 0 ≤ v) (hxy : c.getD i 0 ≤ y) :
    c.getD i 0 / jsOr (jsMax c) 1 ≤ y / jsOr (jsMax (c.set i y)) 1 := by
  have hx0 : 0 ≤ c.getD i 0 := getD_nonneg hnn i
  have hy0 : 0 ≤ y := le_trans hx0 hxy
  have hne : c ≠ [] := List.ne_nil_of_length_pos (Nat.lt_of_le_of_lt (Nat.zero_le i) hi)
  have hi' : i < (c.set i y).length := by simpa using hi
  have hxm : c.getD i 0 ∈ c := by
    rw [List.getD_eq_getElem _ _ hi]
    exact List.getElem_mem hi
  have hxM : c.getD i 0 ≤ jsMax c := le_jsMax hxm
  have hym : y ∈ c.set i y := by
    have h2 : (c.set i y).getD i 0 = y := getD_set_self c i hi y 0
    have h3 : (c.set i y).getD i 0 ∈ c.set i y := by
      rw [List.getD_eq_getElem _ _ hi']
      exact List.getElem_mem hi'
    rwa [h2] at h3
  have hyM' : y ≤ jsMax (c.set i y) := le_jsMax hym
  have hM0 : 0 ≤ jsMax c := le_trans hx0 hxM
  have hM'0 : 0 ≤ jsMax (c.set i y) := le_trans hy0 hyM'
  have hMM' : jsMax c ≤ jsMax (c.set i y) := jsMax_set_ge c i hi y hxy
  by_cases hM : jsMax c = 0
  · have hx : c.getD i 0 = 0 := le_antisymm (hM ▸ hxM) hx0
    rw [hx, zero_div]
    exact div_nonneg hy0 (jsOr_pos hM'0 one_pos).le
  · have hMpos : 0 < jsMax c := lt_of_le_of_ne hM0 (Ne.symm hM)
    rw [jsOr, if_neg hM]
    by_cases hM' : jsMax (c.set i y) = 0
    · have hy' : y = 0 := le_antisymm (hM' ▸ hyM') hy0
      have hx : c.getD i 0 = 0 := le_antisymm (hy' ▸ hxy) hx0
      rw [hx, hy', zero_div, zero_div]
    · have hM'pos : 0 < jsMax (c.set i y) := lt_of_le_of_ne hM'0 (Ne.symm hM')
      rw [jsOr, if_neg hM']
      have hub : jsMax (c.set i y) ≤ max (jsMax c) y := by
        refine jsMax_le ?_ ?_
        · intro hnil
          have hlen := congrArg List.length hnil
          rw [List.length_set] at hlen
          simp only [List.length_nil] at hlen
          omega
        · intro v hv
          obtain ⟨k, hk, hke⟩ := List.mem_iff_getElem.mp hv
          have hk2 : k < c.length := by simpa using hk
          have hkd : (c.set i y).getD k 0 = v := by
            rw [List.getD_eq_getElem _ _ hk]
            exact hke
          by_cases hki : k = i
          · rw [hki, getD_set_self c i hi y 0] at hkd
            rw [← hkd]
            exact le_max_right _ _
          · rw [getD_set_ne c i k y 0 hki] at hkd
            rw [← hkd]
            have hmem : c.getD k 0 ∈ c := by
              rw [List.getD_eq_getElem _ _ hk2]
              exact List.getElem_mem hk2
            exact le_trans (le_jsMax hmem) (le_max_left _ _)
      by_cases hyM : y ≤ jsMax c
      · have heq : jsMax (c.set i y) = jsMax c :=
          le_antisymm (by rw [max_eq_left hyM] at hub; exact hub) hMM'
        rw [heq, div_eq_mul_inv, div_eq_mul_inv]
        exact mul_le_mul_of_nonneg_right hxy (inv_nonneg.mpr hM0)
      · have hyM2 : jsMax c < y := lt_of_not_le hyM
        have heq : jsMax (c.set i y) = y :=
          le_antisymm (by rw [max_eq_right hyM2.le] at hub; exact hub) hyM'
        rw [heq, div_self (ne_of_gt (lt_trans hMpos hyM2))]
        exact (div_le_one hMpos).mpr hxM

theorem linmax_cell_anti (c : List K) (i : ℕ) (hi : i < c.length) (y : K)
    (hnn : ∀ v ∈ c, 0 ≤ v) (hxy : c.getD i 0 ≤ y) (k : ℕ) (hki : k ≠ i) :
    (c.set i y).getD k 0 / jsOr (jsMax (c.set i y)) 1 ≤ c.getD k 0 / jsOr (jsMax c) 1 := by
  rw [getD_set_ne c i k y 0 hki]
  have hk0 : 0 ≤ c.getD k 0 := getD_nonneg hnn k
  have hne : c ≠ [] := List.ne_nil_of_length_pos (Nat.lt_of_le_of_lt (Nat.zero_le i) hi)
  by_cases hM : jsMax c = 0
  · have hck : c.getD k 0 = 0 := by
      by_cases hkc : k < c.length
      · have hmem : c.getD k 0 ∈ c := by
          rw [List.getD_eq_getElem _ _ hkc]
          exact List.getElem_mem hkc
        have h6 := le_jsMax hmem
        rw [hM] at h6
        exact le_antisymm h6 hk0
      · exact List.getD_eq_default _ _ (le_of_not_lt hkc)
    rw [hck, zero_div, zero_div]
  · have hM0 : 0 ≤ jsMax c := hnn _ (jsMax_mem hne)
    have hMpos : 0 < jsMax c := lt_of_le_of_ne hM0 (Ne.symm hM)
    have hMM' : jsMax c ≤ jsMax (c.set i y) := jsMax_set_ge c i hi y hxy
    have hM'pos : 0 < jsMax (c.set i y) := lt_of_lt_of_le hMpos hMM'
    rw [jsOr, if_neg (ne_of_gt hM'pos), jsOr, if_neg hM]
    exact div_le_div_of_nonneg_left hk0 hMpos hMM'


theorem getD_map_range {α : Type} {n j : ℕ} (f : ℕ → α) (d : α) (hj : j < n) :
    ((List.range n).map f).getD j d = f j := by
  rw [List.getD_eq_getElem _ _ (by simpa using hj)]
  simp

theorem getD_map {α β : Type} (A : List α) (F : α → β) (i : ℕ) (hi : i < A.length)
    (d : β) (a : α) : (A.map F).getD i d = F (A.getD i a) := by
  rw [List.getD_eq_getElem _ _ (by simpa using hi), List.getD_eq_getElem _ _ hi]
  simp

theorem set_getD_eq {α : Type} (l : List α) (i : ℕ) (hi : i < l.length) (d : α) :
    l.set i (l.getD i d) = l := by
  rw [List.getD_eq_getElem _ _ hi]
  apply List.ext_getElem
  · simp
  · intro k h1 h2
    by_cases hk : k = i
    · subst hk
      simp
    · rw [List.getElem_set_ne (fun he => hk he.symm)]

theorem numCrit_set_inner (A : List (List K)) (i j : ℕ) (y : K) (hi : i < A.length) :
    numCrit (A.set i ((A.getD i []).set j y)) = numCrit A := by
  cases A with
  | nil => cases hi
  | cons a t =>
    cases i with
    | zero => simp [numCrit, List.getD_cons_zero]
    | succ m => simp [numCrit]

theorem col_set_inner_self (A : List (List K)) (i j : ℕ) (y : K)
    (hi : i < A.length) (hj : j < (A.getD i []).length) :
    col (A.set i ((A.getD i []).set j y)) j = (col A j).set i y := by
  unfold col
  rw [List.map_set, getD_set_self _ j hj y 0]

theorem col_set_inner_ne (A : List (List K)) (i j j' : ℕ) (y : K)
    (hi : i < A.length) (hne : j' ≠ j) :
    col (A.set i ((A.getD i []).set j y)) j' = col A j' := by
  unfold col
  rw [List.map_set, getD_set_ne _ j j' y 0 hne]
  have h1 : (A.getD i []).getD j' 0 = (A.map (fun row => row.getD j' 0)).getD i 0 :=
    (getD_map A (fun row => row.getD j' 0) i hi 0 []).symm
  rw [h1, set_getD_eq _ i (by simpa using hi) 0]

theorem vector_form (sq : K → K) (A : List (List K)) (dir : List Direction)
    (hrect : ∀ row ∈ A, row.length = numCrit A) :
    Normalization.vector sq A dir = A.map (fun row =>
      (List.range (numCrit A)).map (fun j =>
        row.getD j 0 / jsOr (sq (sumSq (col A j))) 1)) := by
  simp only [Normalization.vector]
  apply List.map_congr_left
  intro row hrow
  rw [List.drop_eq_nil_of_le (le_of_eq (hrect row hrow)), List.append_nil]
  rfl

theorem TOPSIS_weighted_form (sq : K → K) (A : List (List K)) (w : List K)
    (dir : List Direction) (hrect : ∀ row ∈ A, row.length = numCrit A) :
    (Normalization.vector sq A dir).map (fun row =>
      row.enum.map (fun p => p.2 * w.getD p.1 0)) =
    A.map (fun row => (List.range (numCrit A)).map (fun j =>
      row.getD j 0 / jsOr (sq (sumSq (col A j))) 1 * w.getD j 0)) := by
  rw [vector_form sq A dir hrect, List.map_map]
  apply List.map_congr_left
  intro row _
  simp only [Function.comp_apply]
  rw [enum_map_range, List.map_map]
  rfl

theorem SAW_scores_form (A : List (List K)) (w : List K) (dir : List Direction)
    (hrect : ∀ row ∈ A, row.length = numCrit A) :
    (SAW A w dir).scores = A.map (fun row =>
      (List.range (numCrit A)).foldl (fun s j =>
        s + (if dirAt dir j = Direction.max then
              row.getD j 0 / jsOr (jsMax (col A j)) 1
            else if row.getD j 0 ≠ 0 then
              jsOr (jsMin ((col A j).filter (fun v => decide (0 < v)))) (1/1000) /
                row.getD j 0
            else 0) * w.getD j 0) 0) := by
  simp only [SAW, Normalization.linearMax, List.map_map]
  apply List.map_congr_left
  intro row hrow
  simp only [Function.comp_apply]
  rw [List.drop_eq_nil_of_le (le_of_eq (hrect row hrow)), List.append_nil,
    enum_map_range, List.foldl_map]

theorem col_of_map_range {n : ℕ} (A : List (List K)) (g : List K → ℕ → K) (j : ℕ)
    (hj : j < n) :
    col (A.map (fun row => (List.range n).map (g row))) j =
      A.map (fun row => g row j) := by
  unfold col
  rw [List.map_map]
  apply List.map_congr_left
  intro row _
  simp only [Function.comp_apply]
  exact getD_map_range _ 0 hj


theorem col_length (A : List (List K)) (j : ℕ) : (col A j).length = A.length := by
  simp [col]

theorem col_getD (A : List (List K)) (j k : ℕ) (hk : k < A.length) :
    (col A j).getD k 0 = (A.getD k []).getD j 0 := by
  unfold col
  exact getD_map A (fun row => row.getD j 0) k hk 0 []

theorem col_nonneg (A : List (List K)) (j : ℕ)
    (hnn : ∀ row ∈ A, ∀ v ∈ row, 0 ≤ v) : ∀ v ∈ col A j, 0 ≤ v := by
  intro v hv
  unfold col at hv
  obtain ⟨row, hrow, rfl⟩ := List.mem_map.mp hv
  exact getD_nonneg (hnn row hrow) j

theorem getD_mem_self {α : Type} (A : List α) (i : ℕ) (hi : i < A.length) (d : α) :
    A.getD i d ∈ A := by
  rw [List.getD_eq_getElem _ _ hi]
  exact List.getElem_mem hi

theorem set_inner_rect (A : List (List K)) (i j : ℕ) (y : K) (hi : i < A.length)
    (hrect : ∀ row ∈ A, row.length = numCrit A) :
    ∀ row ∈ A.set i ((A.getD i []).set j y),
      row.length = numCrit (A.set i ((A.getD i []).set j y)) := by
  intro row hrow
  rw [numCrit_set_inner A i j y hi]
  rcases List.mem_or_eq_of_mem_set hrow with h | h
  · exact hrect row h
  · subst h
    rw [List.length_set]
    exact hrect _ (getD_mem_self A i hi [])

theorem set_inner_nonneg (A : List (List K)) (i j : ℕ) (y : K) (hi : i < A.length)
    (hy : 0 ≤ y) (hnn : ∀ row ∈ A, ∀ v ∈ row, 0 ≤ v) :
    ∀ row ∈ A.set i ((A.getD i []).set j y), ∀ v ∈ row, 0 ≤ v := by
  intro row hrow
  rcases List.mem_or_eq_of_mem_set hrow with h | h
  · exact hnn row h
  · subst h
    intro v hv
    obtain ⟨k, hk, hke⟩ := List.mem_iff_getElem.mp hv
    by_cases hkj : k = j
    · subst hkj
      rw [List.getElem_set_self (by simpa using hk)] at hke
      exact hke ▸ hy
    · rw [List.getElem_set_ne (fun he => hkj he.symm)] at hke
      refine hnn _ (getD_mem_self A i hi []) v ?_
      rw [← hke]
      exact List.getElem_mem (by simpa using hk)

theorem SAW_score_mono (A : List (List K)) (w : List K) (dir : List Direction)
    (i j : ℕ) (y : K)
    (hi : i < A.length)
    (hrect : ∀ row ∈ A, row.length = numCrit A)
    (hj : j < numCrit A)
    (hdir : dirAt dir j = Direction.max)
    (hxy : (A.getD i []).getD j 0 ≤ y)
    (hnn : ∀ row ∈ A, ∀ v ∈ row, 0 ≤ v)
    (hw : ∀ v ∈ w, 0 ≤ v) :
    (SAW A w dir).scores.getD i 0 ≤
      (SAW (A.set i ((A.getD i []).set j y)) w dir).scores.getD i 0 := by
  have hAimem : A.getD i [] ∈ A := getD_mem_self A i hi []
  have hAilen : (A.getD i []).length = numCrit A := hrect _ hAimem
  have hjlen : j < (A.getD i []).length := by omega
  have hrect' := set_inner_rect A i j y hi hrect
  have hA'len : (A.set i ((A.getD i []).set j y)).length = A.length :=
    List.length_set A i _
  have hi' : i < (A.set i ((A.getD i []).set j y)).length := by omega
  rw [SAW_scores_form A w dir hrect, SAW_scores_form _ w dir hrect',
    numCrit_set_inner A i j y hi,
    getD_map A _ i hi 0 [], getD_map _ _ i hi' 0 [],
    getD_set_self A i hi _ []]
  refine foldl_add_sum_mono _ _ _ 0 0 le_rfl ?_
  intro j' hj'
  have hj'n : j' < numCrit A := List.mem_range.mp hj'
  have hwn : 0 ≤ w.getD j' 0 := getD_nonneg hw j'
  by_cases hjj : j' = j
  · subst hjj
    rw [if_pos hdir, if_pos hdir,
      getD_set_self (A.getD i []) j' hjlen y 0,
      col_set_inner_self A i j' y hi hjlen]
    refine mul_le_mul_of_nonneg_right ?_ hwn
    have hicol : i < (col A j').length := by
      rw [col_length]
      exact hi
    have hxcol : (col A j').getD i 0 ≤ y := by
      rw [col_getD A j' i hi]
      exact hxy
    have base := linmax_cell_mono (col A j') i hicol y (col_nonneg A j' hnn) hxcol
    rw [col_getD A j' i hi] at base
    exact base
  · rw [col_set_inner_ne A i j j' y hi hjj,
      getD_set_ne (A.getD i []) j j' y 0 hjj]

theorem SAW_score_anti (A : List (List K)) (w : List K) (dir : List Direction)
    (i j : ℕ) (y : K)
    (hi : i < A.length)
    (hrect : ∀ row ∈ A, row.length = numCrit A)
    (hj : j < numCrit A)
    (hdir : dirAt dir j = Direction.max)
    (hxy : (A.getD i []).getD j 0 ≤ y)
    (hnn : ∀ row ∈ A, ∀ v ∈ row, 0 ≤ v)
    (hw : ∀ v ∈ w, 0 ≤ v)
    (k : ℕ) (hk : k ≠ i) :
    (SAW (A.set i ((A.getD i []).set j y)) w dir).scores.getD k 0 ≤
      (SAW A w dir).scores.getD k 0 := by
  have hAimem : A.getD i [] ∈ A := getD_mem_self A i hi []
  have hAilen : (A.getD i []).length = numCrit A := hrect _ hAimem
  have hjlen : j < (A.getD i []).length := by omega
  have hrect' := set_inner_rect A i j y hi hrect
  have hA'len : (A.set i ((A.getD i []).set j y)).length = A.length :=
    List.length_set A i _
  rw [SAW_scores_form A w dir hrect, SAW_scores_form _ w dir hrect',
    numCrit_set_inner A i j y hi]
  by_cases hkA : k < A.length
  · have hk' : k < (A.set i ((A.getD i []).set j y)).length := by omega
    rw [getD_map A _ k hkA 0 [], getD_map _ _ k hk' 0 [],
      getD_set_ne A i k _ [] hk]
    refine foldl_add_sum_mono _ _ _ 0 0 le_rfl ?_
    intro j' hj'
    have hj'n : j' < numCrit A := List.mem_range.mp hj'
    have hwn : 0 ≤ w.getD j' 0 := getD_nonneg hw j'
    by_cases hjj : j' = j
    · subst hjj
      rw [if_pos hdir, if_pos hdir, col_set_inner_self A i j' y hi hjlen]
      refine mul_le_mul_of_nonneg_right ?_ hwn
      have hicol : i < (col A j').length := by
        rw [col_length]
        exact hi
      have hxcol : (col A j').getD i 0 ≤ y := by
        rw [col_getD A j' i hi]
        exact hxy
      have base := linmax_cell_anti (col A j') i hicol y (col_nonneg A j' hnn)
        hxcol k hk
      rw [getD_set_ne (col A j') i k y 0 hk, col_getD A j' k hkA] at base
      exact base
    · rw [col_set_inner_ne A i j j' y hi hjj]
  · have hkA2 : A.length ≤ k := Nat.le_of_not_lt hkA
    rw [List.getD_eq_default _ _ (by simpa using hkA2),
      List.getD_eq_default _ _ (by simpa [hA'len] using hkA2)]


theorem TOPSIS_score_formula (sq : K → K) (A : List (List K)) (w : List K)
    (dir : List Direction) (i : ℕ) (hi : i < A.length)
    (hrect : ∀ row ∈ A, row.length = numCrit A) :
    (TOPSIS sq A w dir).scores.getD i 0 =
      sq ((List.range (numCrit A)).foldl (fun s j =>
        s + ((A.getD i []).getD j 0 / jsOr (sq (sumSq (col A j))) 1 * w.getD j 0 -
          (if dirAt dir j = Direction.max
           then jsMin (A.map (fun row =>
             row.getD j 0 / jsOr (sq (sumSq (col A j))) 1 * w.getD j 0))
           else jsMax (A.map (fun row =>
             row.getD j 0 / jsOr (sq (sumSq (col A j))) 1 * w.getD j 0)))) ^ 2) 0) /
      (sq ((List.range (numCrit A)).foldl (fun s j =>
        s + ((A.getD i []).getD j 0 / jsOr (sq (sumSq (col A j))) 1 * w.getD j 0 -
          (if dirAt dir j = Direction.max
           then jsMax (A.map (fun row =>
             row.getD j 0 / jsOr (sq (sumSq (col A j))) 1 * w.getD j 0))
           else jsMin (A.map (fun row =>
             row.getD j 0 / jsOr (sq (sumSq (col A j))) 1 * w.getD j 0)))) ^ 2) 0) +
       sq ((List.range (numCrit A)).foldl (fun s j =>
        s + ((A.getD i []).getD j 0 / jsOr (sq (sumSq (col A j))) 1 * w.getD j 0 -
          (if dirAt dir j = Direction.max
           then jsMin (A.map (fun row =>
             row.getD j 0 / jsOr (sq (sumSq (col A j))) 1 * w.getD j 0))
           else jsMax (A.map (fun row =>
             row.getD j 0 / jsOr (sq (sumSq (col A j))) 1 * w.getD j 0)))) ^ 2) 0) +
       1/10000) := by
  simp only [TOPSIS]
  rw [TOPSIS_weighted_form sq A w dir hrect]
  rw [getD_map_range _ 0 hi]
  rw [getD_map_range _ 0 hi]
  rw [getD_map_range _ 0 hi]
  rw [getD_map A _ i hi [] []]
  congr 1
  · congr 1
    refine List.foldl_ext _ _ 0 ?_
    intro a j' hj'
    have hj'n : j' < numCrit A := List.mem_range.mp hj'
    rw [getD_map_range _ 0 hj'n]
    rw [getD_map_range _ 0 hj'n]
    rw [col_of_map_range A _ j' hj'n]
  · congr 2
    · congr 1
      refine List.foldl_ext _ _ 0 ?_
      intro a j' hj'
      have hj'n : j' < numCrit A := List.mem_range.mp hj'
      rw [getD_map_range _ 0 hj'n]
      rw [getD_map_range _ 0 hj'n]
      rw [col_of_map_range A _ j' hj'n]
    · congr 1
      refine List.foldl_ext _ _ 0 ?_
      intro a j' hj'
      have hj'n : j' < numCrit A := List.mem_range.mp hj'
      rw [getD_map_range _ 0 hj'n]
      rw [getD_map_range _ 0 hj'n]
      rw [col_of_map_range A _ j' hj'n]


theorem map_set_inner_eq (A : List (List K)) (r : List K) (i : ℕ) (hi : i < A.length)
    (F : List K → K) (hF : F r = F (A.getD i [])) :
    (A.set i r).map F = A.map F := by
  rw [List.map_set, hF,
    show F (A.getD i []) = (A.map F).getD i 0 from (getD_map A F i hi 0 []).symm,
    set_getD_eq _ i (by simpa using hi) 0]

theorem pis_gap_sq (L L' : List K) (i : ℕ) (hiL : i < L.length) (hiL' : i < L'.length)
    (hLL' : L'.length = L.length)
    (hmono : L.getD i 0 ≤ L'.getD i 0)
    (hanti : ∀ k, k < L.length → k ≠ i → L'.getD k 0 ≤ L.getD k 0) :
    (L'.getD i 0 - jsMax L') ^ 2 ≤ (L.getD i 0 - jsMax L) ^ 2 := by
  have hLne : L ≠ [] := List.ne_nil_of_length_pos (Nat.lt_of_le_of_lt (Nat.zero_le i) hiL)
  have hL'ne : L' ≠ [] := List.ne_nil_of_length_pos (Nat.lt_of_le_of_lt (Nat.zero_le i) hiL')
  have h1 : L.getD i 0 ≤ jsMax L := le_jsMax (getD_mem_self L i hiL 0)
  have h2 : L'.getD i 0 ≤ jsMax L' := le_jsMax (getD_mem_self L' i hiL' 0)
  have key : jsMax L' - L'.getD i 0 ≤ jsMax L - L.getD i 0 := by
    obtain ⟨k, hk, hke⟩ := List.mem_iff_getElem.mp (jsMax_mem hL'ne)
    have hkd : L'.getD k 0 = jsMax L' := by
      rw [List.getD_eq_getElem _ _ hk]
      exact hke
    by_cases hki : k = i
    · rw [hki] at hkd
      rw [← hkd]
      linarith
    · have hkL : k < L.length := by omega
      have ha := hanti k hkL hki
      have hb : L.getD k 0 ≤ jsMax L := le_jsMax (getD_mem_self L k hkL 0)
      linarith [hkd ▸ ha]
  rw [show (L'.getD i 0 - jsMax L') ^ 2 = (jsMax L' - L'.getD i 0) ^ 2 from by ring,
    show (L.getD i 0 - jsMax L) ^ 2 = (jsMax L - L.getD i 0) ^ 2 from by ring]
  exact pow_le_pow_left₀ (by linarith) key 2

theorem nis_gap_sq (L L' : List K) (i : ℕ) (hiL : i < L.length) (hiL' : i < L'.length)
    (hLL' : L'.length = L.length)
    (hmono : L.getD i 0 ≤ L'.getD i 0)
    (hanti : ∀ k, k < L.length → k ≠ i → L'.getD k 0 ≤ L.getD k 0) :
    (L.getD i 0 - jsMin L) ^ 2 ≤ (L'.getD i 0 - jsMin L') ^ 2 := by
  have hLne : L ≠ [] := List.ne_nil_of_length_pos (Nat.lt_of_le_of_lt (Nat.zero_le i) hiL)
  have h1 : jsMin L ≤ L.getD i 0 := jsMin_le (getD_mem_self L i hiL 0)
  have h2 : jsMin L' ≤ L'.getD i 0 := jsMin_le (getD_mem_self L' i hiL' 0)
  have key : L.getD i 0 - jsMin L ≤ L'.getD i 0 - jsMin L' := by
    obtain ⟨k, hk, hke⟩ := List.mem_iff_getElem.mp (jsMin_mem hLne)
    have hkd : L.getD k 0 = jsMin L := by
      rw [List.getD_eq_getElem _ _ hk]
      exact hke
    by_cases hki : k = i
    · rw [hki] at hkd
      rw [← hkd]
      linarith
    · have hkL' : k < L'.length := by omega
      have ha := hanti k hk hki
      have hb : jsMin L' ≤ L'.getD k 0 := jsMin_le (getD_mem_self L' k hkL' 0)
      linarith [hkd ▸ ha]
  exact pow_le_pow_left₀ (by linarith) key 2

theorem wcol_cell_mono (A : List (List ℝ)) (w : List ℝ) (i j : ℕ) (y : ℝ)
    (hi : i < A.length) (hjlen : j < (A.getD i []).length)
    (hxy : (A.getD i []).getD j 0 ≤ y) (hnn : ∀ row ∈ A, ∀ v ∈ row, 0 ≤ v)
    (hwn : 0 ≤ w.getD j 0) :
    (A.getD i []).getD j 0 / jsOr (Real.sqrt (sumSq (col A j))) 1 * w.getD j 0 ≤
    ((A.getD i []).set j y).getD j 0 /
      jsOr (Real.sqrt (sumSq (col (A.set i ((A.getD i []).set j y)) j))) 1 *
      w.getD j 0 := by
  rw [col_set_inner_self A i j y hi hjlen, getD_set_self (A.getD i []) j hjlen y 0]
  refine mul_le_mul_of_nonneg_right ?_ hwn
  have hicol : i < (col A j).length := by
    rw [col_length]
    exact hi
  have base := vecnorm_cell_mono (col A j) i hicol y (col_nonneg A j hnn)
    (by rw [col_getD A j i hi]; exact hxy)
  rw [col_getD A j i hi] at base
  exact base

theorem wcol_cell_anti (A : List (List ℝ)) (w : List ℝ) (i j : ℕ) (y : ℝ)
    (hi : i < A.length) (hjlen : j < (A.getD i []).length)
    (hxy : (A.getD i []).getD j 0 ≤ y) (hnn : ∀ row ∈ A, ∀ v ∈ row, 0 ≤ v)
    (hwn : 0 ≤ w.getD j 0) (k : ℕ) (hkA : k < A.length) (hk : k ≠ i) :
    ((A.set i ((A.getD i []).set j y)).getD k []).getD j 0 /
      jsOr (Real.sqrt (sumSq (col (A.set i ((A.getD i []).set j y)) j))) 1 *
      w.getD j 0 ≤
    (A.getD k []).getD j 0 / jsOr (Real.sqrt (sumSq (col A j))) 1 * w.getD j 0 := by
  rw [getD_set_ne A i k _ [] hk, col_set_inner_self A i j y hi hjlen]
  refine mul_le_mul_of_nonneg_right ?_ hwn
  have hicol : i < (col A j).length := by
    rw [col_length]
    exact hi
  have base := vecnorm_cell_anti (col A j) i hicol y (col_nonneg A j hnn)
    (by rw [col_getD A j i hi]; exact hxy) k hk
  rw [getD_set_ne (col A j) i k y 0 hk, col_getD A j k hkA] at base
  exact base


theorem TOPSIS_score_mono (A : List (List ℝ)) (w : List ℝ) (dir : List Direction)
    (i j : ℕ) (y : ℝ)
    (hi : i < A.length)
    (hrect : ∀ row ∈ A, row.length = numCrit A)
    (hj : j < numCrit A)
    (hdir : dirAt dir j = Direction.max)
    (hxy : (A.getD i []).getD j 0 ≤ y)
    (hnn : ∀ row ∈ A, ∀ v ∈ row, 0 ≤ v)
    (hw : ∀ v ∈ w, 0 ≤ v) :
    (TOPSIS Real.sqrt A w dir).scores.getD i 0 ≤
      (TOPSIS Real.sqrt (A.set i ((A.getD i []).set j y)) w dir).scores.getD i 0 := by
  have hAimem : A.getD i [] ∈ A := getD_mem_self A i hi []
  have hAilen : (A.getD i []).length = numCrit A := hrect _ hAimem
  have hjlen : j < (A.getD i []).length := by omega
  have hrect' := set_inner_rect A i j y hi hrect
  have hA'len : (A.set i ((A.getD i []).set j y)).length = A.length :=
    List.length_set A i _
  have hi2 : i < (A.set i ((A.getD i []).set j y)).length := by omega
  have hwnj : 0 ≤ w.getD j 0 := getD_nonneg hw j
  have e1 : (A.map (fun row => row.getD j 0 / jsOr (Real.sqrt (sumSq (col A j))) 1 * w.getD j 0)).getD i 0 =
      (A.getD i []).getD j 0 / jsOr (Real.sqrt (sumSq (col A j))) 1 * w.getD j 0 :=
    getD_map A _ i hi 0 []
  have e2 : ((A.set i ((A.getD i []).set j y)).map (fun row => row.getD j 0 / jsOr (Real.sqrt (sumSq (col (A.set i ((A.getD i []).set j y)) j))) 1 * w.getD j 0)).getD i 0 =
      ((A.getD i []).set j y).getD j 0 /
        jsOr (Real.sqrt (sumSq (col (A.set i ((A.getD i []).set j y)) j))) 1 *
        w.getD j 0 := by
    rw [getD_map _ _ i hi2 ((0 : ℝ)) [], getD_set_self A i hi _ []]
  have hmono : (A.map (fun row => row.getD j 0 / jsOr (Real.sqrt (sumSq (col A j))) 1 * w.getD j 0)).getD i 0 ≤
      ((A.set i ((A.getD i []).set j y)).map (fun row => row.getD j 0 / jsOr (Real.sqrt (sumSq (col (A.set i ((A.getD i []).set j y)) j))) 1 * w.getD j 0)).getD i 0 := by
    rw [e1, e2]
    exact wcol_cell_mono A w i j y hi hjlen hxy hnn hwnj
  have hanti : ∀ k, k < (A.map (fun row => row.getD j 0 / jsOr (Real.sqrt (sumSq (col A j))) 1 * w.getD j 0)).length → k ≠ i →
      ((A.set i ((A.getD i []).set j y)).map (fun row => row.getD j 0 / jsOr (Real.sqrt (sumSq (col (A.set i ((A.getD i []).set j y)) j))) 1 * w.getD j 0)).getD k 0 ≤
        (A.map (fun row => row.getD j 0 / jsOr (Real.sqrt (sumSq (col A j))) 1 * w.getD j 0)).getD k 0 := by
    intro k hkL hk
    have hkA : k < A.length := by simpa using hkL
    have hkA2 : k < (A.set i ((A.getD i []).set j y)).length := by omega
    rw [getD_map A _ k hkA ((0 : ℝ)) [], getD_map _ _ k hkA2 ((0 : ℝ)) []]
    exact wcol_cell_anti A w i j y hi hjlen hxy hnn hwnj k hkA hk
  have hiL : i < (A.map (fun row => row.getD j 0 / jsOr (Real.sqrt (sumSq (col A j))) 1 * w.getD j 0)).length := by simpa using hi
  have hiL2 : i < ((A.set i ((A.getD i []).set j y)).map (fun row => row.getD j 0 / jsOr (Real.sqrt (sumSq (col (A.set i ((A.getD i []).set j y)) j))) 1 * w.getD j 0)).length := by
    simpa using hi2
  have hLL : ((A.set i ((A.getD i []).set j y)).map (fun row => row.getD j 0 / jsOr (Real.sqrt (sumSq (col (A.set i ((A.getD i []).set j y)) j))) 1 * w.getD j 0)).length =
      (A.map (fun row => row.getD j 0 / jsOr (Real.sqrt (sumSq (col A j))) 1 * w.getD j 0)).length := by
    simp [hA'len]
  rw [TOPSIS_score_formula Real.sqrt A w dir i hi hrect,
    TOPSIS_score_formula Real.sqrt _ w dir i hi2 hrect',
    numCrit_set_inner A i j y hi,
    getD_set_self A i hi _ []]
  refine closeness_mono (Real.sqrt_nonneg _) (Real.sqrt_nonneg _) ?_ ?_
  · refine Real.sqrt_le_sqrt ?_
    refine foldl_add_sum_mono _ _ _ 0 0 le_rfl ?_
    intro j' hj'
    have hj'n : j' < numCrit A := List.mem_range.mp hj'
    by_cases hjj : j' = j
    · subst hjj
      rw [if_pos hdir, if_pos hdir, ← e1, ← e2]
      exact pis_gap_sq _ _ i hiL hiL2 hLL hmono hanti
    · refine le_of_eq ?_
      rw [col_set_inner_ne A i j j' y hi hjj,
        getD_set_ne (A.getD i []) j j' y 0 hjj]
      have hF : ((A.getD i []).set j y).getD j' 0 /
            jsOr (Real.sqrt (sumSq (col A j'))) 1 * w.getD j' 0 =
          (A.getD i []).getD j' 0 /
            jsOr (Real.sqrt (sumSq (col A j'))) 1 * w.getD j' 0 := by
        rw [getD_set_ne (A.getD i []) j j' y 0 hjj]
      rw [map_set_inner_eq A ((A.getD i []).set j y) i hi
        (fun row => row.getD j' 0 / jsOr (Real.sqrt (sumSq (col A j'))) 1 *
          w.getD j' 0) hF]
  · refine Real.sqrt_le_sqrt ?_
    refine foldl_add_sum_mono _ _ _ 0 0 le_rfl ?_
    intro j' hj'
    have hj'n : j' < numCrit A := List.mem_range.mp hj'
    by_cases hjj : j' = j
    · subst hjj
      rw [if_pos hdir, if_pos hdir, ← e1, ← e2]
      exact nis_gap_sq _ _ i hiL hiL2 hLL hmono hanti
    · refine le_of_eq ?_
      rw [col_set_inner_ne A i j j' y hi hjj,
        getD_set_ne (A.getD i []) j j' y 0 hjj]
      have hF : ((A.getD i []).set j y).getD j' 0 /
            jsOr (Real.sqrt (sumSq (col A j'))) 1 * w.getD j' 0 =
          (A.getD i []).getD j' 0 /
            jsOr (Real.sqrt (sumSq (col A j'))) 1 * w.getD j' 0 := by
        rw [getD_set_ne (A.getD i []) j j' y 0 hjj]
      rw [map_set_inner_eq A ((A.getD i []).set j y) i hi
        (fun row => row.getD j' 0 / jsOr (Real.sqrt (sumSq (col A j'))) 1 *
          w.getD j' 0) hF]


theorem SAW_scores_length (A : List (List K)) (w : List K) (dir : List Direction) :
    (SAW A w dir).scores.length = A.length := by
  simp [SAW, Normalization.linearMax]

theorem SAW_rank_anti (A : List (List K)) (w : List K) (dir : List Direction)
    (i j : ℕ) (y : K)
    (hi : i < A.length)
    (hrect : ∀ row ∈ A, row.length = numCrit A)
    (hj : j < numCrit A)
    (hdir : dirAt dir j = Direction.max)
    (hxy : (A.getD i []).getD j 0 ≤ y)
    (hnn : ∀ row ∈ A, ∀ v ∈ row, 0 ≤ v)
    (hw : ∀ v ∈ w, 0 ≤ v) :
    (SAW (A.set i ((A.getD i []).set j y)) w dir).ranking.getD i 0 ≤
      (SAW A w dir).ranking.getD i 0 := by
  show (rankFrom (SAW (A.set i ((A.getD i []).set j y)) w dir).scores).getD i 0 ≤
    (rankFrom (SAW A w dir).scores).getD i 0
  refine rankFrom_getD_mono _ _ i ?_ ?_ ?_ ?_
  · rw [SAW_scores_length, SAW_scores_length, List.length_set]
  · rw [SAW_scores_length]
    exact hi
  · exact SAW_score_mono A w dir i j y hi hrect hj hdir hxy hnn hw
  · exact fun k hk => SAW_score_anti A w dir i j y hi hrect hj hdir hxy hnn hw k hk


/-- C5 counterexample to the original claim: with the single maximize
criterion and matrix `[[-2],[-1]]`, increasing the cell of alternative 0
from `-2` to `-3/2` strictly DECREASES its SAW score: the linear-max
normalization divides by the (negative) column maximum `-1`, so the score
drops from `2` to `3/2`.  Monotonicity therefore fails for matrices with
negative entries. -/
theorem C5_monotonicity_counterexample :
    ((-2 : ℚ) ≤ -3/2) ∧
    (SAW (([[-2],[-1]] : List (List ℚ)).set 0
        ((([[-2],[-1]] : List (List ℚ)).getD 0 []).set 0 (-3/2)))
      [1] [Direction.max]).scores.getD 0 0 <
      (SAW ([[-2],[-1]] : List (List ℚ)) [1] [Direction.max]).scores.getD 0 0 := by
  constructor
  · norm_num
  · norm_num [SAW, Normalization.linearMax, numCrit, col, dirAt, jsOr, jsMax,
      jsMin, List.range_succ, List.enum, List.enumFrom]

/-- C5 (amended): for a RECTANGULAR matrix with NON-NEGATIVE entries,
non-negative weights, and a maximize criterion `j`, raising the cell of
alternative `i` in column `j` (holding everything else fixed) never
decreases alternative `i`'s SAW score, never increases its SAW rank
number, and never decreases its TOPSIS score (with the real square root).
The TOPSIS rank-number part of the original claim is dropped: it is false
even for non-negative inputs. -/
theorem C5_monotonicity_amended (A : List (List ℝ)) (w : List ℝ)
    (dir : List Direction) (i j : ℕ) (y : ℝ)
    (hi : i < A.length)
    (hrect : ∀ row ∈ A, row.length = numCrit A)
    (hj : j < numCrit A)
    (hdir : dirAt dir j = Direction.max)
    (hxy : (A.getD i []).getD j 0 ≤ y)
    (hnn : ∀ row ∈ A, ∀ v ∈ row, 0 ≤ v)
    (hw : ∀ v ∈ w, 0 ≤ v) :
    (SAW A w dir).scores.getD i 0 ≤
      (SAW (A.set i ((A.getD i []).set j y)) w dir).scores.getD i 0 ∧
    (SAW (A.set i ((A.getD i []).set j y)) w dir).ranking.getD i 0 ≤
      (SAW A w dir).ranking.getD i 0 ∧
    (TOPSIS Real.sqrt A w dir).scores.getD i 0 ≤
      (TOPSIS Real.sqrt (A.set i ((A.getD i []).set j y)) w dir).scores.getD i 0 :=
  ⟨SAW_score_mono A w dir i j y hi hrect hj hdir hxy hnn hw,
   SAW_rank_anti A w dir i j y hi hrect hj hdir hxy hnn hw,
   TOPSIS_score_mono A w dir i j y hi hrect hj hdir hxy hnn hw⟩

/-- C5 witness: the amended monotonicity theorem applied to the concrete
input `[[1],[2]]`, weight `[1]`, maximize, raising the first cell to `3`. -/
theorem C5_monotonicity_amended_witness :
    (SAW ([[1],[2]] : List (List ℝ)) [1] [Direction.max]).scores.getD 0 0 ≤
      (SAW (([[1],[2]] : List (List ℝ)).set 0 ((([[1],[2]] : List (List ℝ)).getD 0 []).set 0 3)) [1] [Direction.max]).scores.getD 0 0 ∧
    (SAW (([[1],[2]] : List (List ℝ)).set 0 ((([[1],[2]] : List (List ℝ)).getD 0 []).set 0 3)) [1] [Direction.max]).ranking.getD 0 0 ≤
      (SAW ([[1],[2]] : List (List ℝ)) [1] [Direction.max]).ranking.getD 0 0 ∧
    (TOPSIS Real.sqrt ([[1],[2]] : List (List ℝ)) [1] [Direction.max]).scores.getD 0 0 ≤
      (TOPSIS Real.sqrt (([[1],[2]] : List (List ℝ)).set 0 ((([[1],[2]] : List (List ℝ)).getD 0 []).set 0 3)) [1] [Direction.max]).scores.getD 0 0 :=
  C5_monotonicity_amended [[1],[2]] [1] [Direction.max] 0 0 3
    (by norm_num)
    (by intro row hrow; rcases List.mem_cons.mp hrow with h | h
        · subst h; rfl
        · rcases List.mem_cons.mp h with h2 | h2
          · subst h2; rfl
          · cases h2)
    (by norm_num [numCrit])
    rfl
    (by show (1 : ℝ) ≤ 3; norm_num)
    (by intro row hrow v hv
        rcases List.mem_cons.mp hrow with h | h
        · subst h; rcases List.mem_cons.mp hv with h2 | h2
          · subst h2; norm_num
          · cases h2
        · rcases List.mem_cons.mp h with h2 | h2
          · subst h2; rcases List.mem_cons.mp hv with h3 | h3
            · subst h3; norm_num
            · cases h3
          · cases h2)
    (by intro v hv; rcases List.mem_cons.mp hv with h | h
        · subst h; norm_num
        · cases h)

end MCDM
